import Mathlib

set_option maxRecDepth 100000

deriving instance DecidableEq for Except

/-
Verification of the protocol-graph ASCII header generator
(src/protocol_graph/__init__.py) through a shallow embedding in Lean 4.

The embedding follows the Python source function by function:
a Python field dictionary becomes the structure ProtoField (the optional
MF key becomes an Option Bool), the attributes of the Protocol object
become the structure Protocol, parse_spec becomes parse_spec, the
_process_field_list while loop becomes the fuel-indexed recursion
processAux (the fuel models the loop counter: running out of fuel is
returned as none and plays the role of nontermination), and the str
conversion becomes renderCore and render, with possible runtime
failures (the assert False branch and the proto_fields[p+1] index
access) returned in the Except error monad.

Python integers are modelled as Int.  All integer divisions and
remainders written with // or % in the source occur with a positive
divisor (bits_per_line is checked positive at parse time), where Int
division and remainder agree with the Python operators.  The two uses
of float true division in the source, int(((field_len/bits_per_line)
*2)-1) and int(lines_to_print/2) at lines 434 and 436, are modelled
bit-precisely: the exact integer quotient is rounded to the nearest
IEEE-754 binary64 value (ties to even) by roundIntToDouble, with none
for the OverflowError that CPython raises when the quotient exceeds
the double range, and the subsequent float arithmetic (the exact
doubling, the rounding subtraction of one, the rounding halving) is
carried out on those rounded values before int() truncates.  Python
strings are modelled as String; Python slice
and repetition semantics, including the behaviour at negative
operands, are modelled by the py* helpers below.  The int() builtin is
modelled on ASCII text: optional surrounding whitespace, an optional
sign, and decimal digits with single underscores between them.
-/

/-! ## Python string and integer primitives -/

/-- Python string repetition s * n: the empty string for a non-positive
count. -/
def pyRepeat (s : String) (n : Int) : String :=
  if n ≤ 0 then "" else String.join (List.replicate n.toNat s)

/-- Python slice s[0:j], with the Python meaning of a negative upper
bound (counted from the end of the string). -/
def pySliceTo (s : String) (j : Int) : String :=
  if 0 ≤ j then ⟨s.toList.take j.toNat⟩
  else ⟨s.toList.take ((s.length : Int) + j).toNat⟩

/-- Python slice s[i:], with the Python meaning of a negative lower
bound (counted from the end of the string). -/
def pySliceFrom (s : String) (i : Int) : String :=
  if 0 ≤ i then ⟨s.toList.drop i.toNat⟩
  else ⟨s.toList.drop ((s.length : Int) + i).toNat⟩

/-- Python str.center(s, width): pad s with spaces to the given total
width; CPython puts the extra space on the left exactly when
marg and width are both odd (left = marg / 2 + (marg & width & 1)). -/
def pyCenter (s : String) (width : Int) : String :=
  if width ≤ (s.length : Int) then s
  else
    let w := width.toNat
    let marg := w - s.length
    let left := marg / 2 + (marg &&& w &&& 1)
    pyRepeat " " (left : Int) ++ s ++ pyRepeat " " ((marg : Int) - (left : Int))

/-- Python str.lower (ASCII model, per character). -/
def pyLower (s : String) : String := ⟨s.toList.map Char.toLower⟩

/-- Python sep.join(parts). -/
def pyJoin (sep : String) : List String → String
  | [] => ""
  | [x] => x
  | x :: rest => x ++ sep ++ pyJoin sep rest

/-- The whitespace characters stripped by the Python int() builtin
(restricted to ASCII). -/
def pyWhitespace (c : Char) : Bool :=
  c = ' ' ∨ c = '\t' ∨ c = '\n' ∨ c = '\x0d' ∨ c = '\x0b' ∨ c = '\x0c'

/-- Strip whitespace from both ends of a character list. -/
def stripList (l : List Char) : List Char :=
  ((l.dropWhile pyWhitespace).reverse.dropWhile pyWhitespace).reverse

/-- An ASCII decimal digit. -/
def pyDigit (c : Char) : Bool := '0' ≤ c && c ≤ '9'

/-- Numeric value of a decimal digit character. -/
def digitVal (c : Char) : Int := (c.toNat : Int) - 48

/-- Value of a string of decimal digits. -/
def digitsVal (l : List Char) : Int :=
  l.foldl (fun acc c => 10 * acc + digitVal c) 0

/-- After an initial digit, int() accepts further digits with single
underscores between digits (an underscore must be followed by a
digit). -/
def udAux : List Char → Bool
  | [] => true
  | c :: rest =>
    if c = '_' then
      match rest with
      | [] => false
      | d :: r => pyDigit d && udAux r
    else pyDigit c && udAux rest

/-- A nonempty digit sequence with optional single underscores between
digits, as accepted by int() after the sign. -/
def underscoreDigitsOk : List Char → Bool
  | [] => false
  | c :: rest => pyDigit c && udAux rest

/-- Parse the digit part of an int() literal. -/
def pyIntCore (l : List Char) : Option Int :=
  if underscoreDigitsOk l then some (digitsVal (l.filter (fun c => c ≠ '_')))
  else none

/-- The Python int() builtin on a string (ASCII model): strip
whitespace, optional sign, decimal digits with single underscores.
Returns none where int() raises ValueError. -/
def pyInt (s : String) : Option Int :=
  match stripList s.toList with
  | '+' :: rest => pyIntCore rest
  | '-' :: rest => (pyIntCore rest).map (fun v => -v)
  | l => pyIntCore l

/-- Worker for Python str.split(sep) on a one-character separator. -/
def splitCharAux (sep : Char) : List Char → List Char → List (List Char)
  | [], acc => [acc.reverse]
  | c :: cs, acc =>
    if c = sep then acc.reverse :: splitCharAux sep cs []
    else splitCharAux sep cs (c :: acc)

/-- Python str.split(sep) for a one-character separator: splits at every
occurrence, keeping empty pieces, and returns one piece for a string
with no separator. -/
def pySplit (s : String) (sep : Char) : List String :=
  (splitCharAux sep s.toList []).map (fun l => ⟨l⟩)

/-! ## Data model (protocol_graph.Protocol) -/

/-- A protocol field dictionary: keys text and len are always present,
the MF key (more fragments) is absent on freshly parsed fields and is
written by _process_field_list. -/
structure ProtoField where
  text : String
  len : Int
  MF : Option Bool
deriving DecidableEq, Repr

/-- The attributes of a Protocol object, as set in Protocol.init and
mutated by parse_spec and (through the field list) by rendering. -/
structure Protocol where
  hdr_char_start : String
  hdr_char_end : String
  hdr_char_fill_odd : String
  hdr_char_fill_even : String
  hdr_char_sep : String
  bits_per_line : Int
  ph_num_per_bit : Int
  do_print_top_tens : Bool
  do_print_top_units : Bool
  do_left_to_right_print : Bool
  field_list : List ProtoField
deriving DecidableEq, Repr

/-- The attribute values set by Protocol.init before parse_spec runs. -/
def defaultProtocol : Protocol :=
  { hdr_char_start := "+"
    hdr_char_end := "+"
    hdr_char_fill_odd := "+"
    hdr_char_fill_even := "-"
    hdr_char_sep := "|"
    bits_per_line := 32
    ph_num_per_bit := 1
    do_print_top_tens := true
    do_print_top_units := true
    do_left_to_right_print := true
    field_list := [] }

/-! ## parse_spec -/

/-- One item of the comma-separated field part: text:bits with bits a
positive integer.  A malformed item (not exactly one colon, or a bits
part rejected by int()) is the generic field_list error; a non-positive
bit count is its own error. -/
def parseFieldItem (item : String) : Except String ProtoField :=
  match pySplit item ':' with
  | [text, bits] =>
    match pyInt bits with
    | some b =>
      if b ≤ 0 then .error "FATAL: Fields must be at least one bit long"
      else .ok ⟨text, b, none⟩
    | none => .error "FATAL: Invalid field_list specification"
  | _ => .error "FATAL: Invalid field_list specification"

/-- The field-parsing loop of parse_spec: parse each item, stopping at
the first error. -/
def parseFieldList : List String → Except String (List ProtoField)
  | [] => .ok []
  | it :: rest =>
    match parseFieldItem it with
    | .error e => .error e
    | .ok f =>
      match parseFieldList rest with
      | .error e => .error e
      | .ok fs => .ok (f :: fs)

/-- One iteration of the option-parsing loop of parse_spec, for one
key=value token.  Mirrors the if/elif chain of the source: keys are
compared lowercased, the numbers value is matched against the falsy
list before the truthy list, char options demand a one-character
value, and an unrecognized key is silently ignored (the source chain
has no final else). -/
def applyOption (p : Protocol) (opt : String) : Except String Protocol :=
  match pySplit opt '=' with
  | [var, value] =>
    if pyLower var = "bits" then
      match pyInt value with
      | some v =>
        if v ≤ 0 then .error "FATAL: Invalid value for bits option"
        else .ok { p with bits_per_line := v }
      | none => .error "FATAL: Invalid options specification"
    else if pyLower var = "numbers" then
      if pyLower value ∈ ["0", "n", "no", "none", "false"] then
        .ok { p with do_print_top_tens := false, do_print_top_units := false }
      else if pyLower value ∈ ["1", "y", "yes", "none", "true"] then
        .ok { p with do_print_top_tens := true, do_print_top_units := true }
      else .error "FATAL: Invalid value for numbers option"
    else if pyLower var ∈ ["oddchar", "evenchar", "startchar", "endchar", "sepchar"] then
      if (value.length : Int) > 1 ∨ (value.length : Int) ≤ 0 then
        .error "FATAL: Invalid value for char option"
      else if pyLower var = "oddchar" then .ok { p with hdr_char_fill_odd := value }
      else if pyLower var = "evenchar" then .ok { p with hdr_char_fill_even := value }
      else if pyLower var = "startchar" then .ok { p with hdr_char_start := value }
      else if pyLower var = "endchar" then .ok { p with hdr_char_end := value }
      else .ok { p with hdr_char_sep := value }
    else .ok p
  | _ => .error "FATAL: Invalid options specification"

/-- The option-parsing loop of parse_spec over the comma-separated
option tokens. -/
def applyOptions : Protocol → List String → Except String Protocol
  | p, [] => .ok p
  | p, o :: rest =>
    match applyOption p o with
    | .error e => .error e
    | .ok p' => applyOptions p' rest

/-- Protocol.parse_spec (together with the attribute defaults of
Protocol.init): split off an option part at a question mark, reject a
spec with more than one question mark, parse the comma-separated
fields, then apply the options. -/
def parse_spec (spec : String) : Except String Protocol :=
  let p0 := defaultProtocol
  if '?' ∈ spec.toList then
    match pySplit spec '?' with
    | fields :: opts :: _ =>
      if spec.toList.count '?' > 1 then
        .error "FATAL: Character ? may only be used as an option separator."
      else
        match parseFieldList (pySplit fields ',') with
        | .error e => .error e
        | .ok fl => applyOptions { p0 with field_list := fl } (pySplit opts ',')
    | _ => .error "unreachable: a split at a contained separator has two parts"
  else
    match parseFieldList (pySplit spec ',') with
    | .error e => .error e
    | .ok fl => .ok { p0 with field_list := fl }

/-! ## _process_field_list -/

/-- Protocol._process_field_list as a fuel-indexed recursion.  One unit
of fuel is one iteration of the while loop; none models a loop that
has not finished within the given fuel.  The first returned list is
new_fields; the second is the final state of the entries of
self.field_list, which the loop mutates in place: every visited field
gets MF set to False, and a field that must be split is overwritten
with its remainder (the split-off piece is appended to new_fields and
the loop reprocesses the slot without advancing, modelled by recursing
on the overwritten head). -/
def processAux (bits : Int) : Nat → List ProtoField → Int → Option (List ProtoField × List ProtoField)
  | _, [], _ => some ([], [])
  | 0, _ :: _, _ => none
  | fuel + 1, field0 :: rest, bits_in_line =>
    let field : ProtoField := { field0 with MF := some false }
    let field_text := field.text
    let field_len := field.len
    let available_in_line := bits - bits_in_line
    if available_in_line ≥ field_len then
      let bil := bits_in_line + field_len
      let bil := if bil = bits then 0 else bil
      match processAux bits fuel rest bil with
      | none => none
      | some (nf, fin) => some (field :: nf, field :: fin)
    else if bits_in_line = 0 ∧ field_len % bits = 0 then
      match processAux bits fuel rest 0 with
      | none => none
      | some (nf, fin) => some (field :: nf, field :: fin)
    else if available_in_line ≥ field_len - available_in_line then
      let new_field : ProtoField := ⟨field_text, available_in_line, some true⟩
      let field' : ProtoField := ⟨"", field_len - available_in_line, some false⟩
      match processAux bits fuel (field' :: rest) 0 with
      | none => none
      | some (nf, fin) => some (new_field :: nf, fin)
    else
      let new_field : ProtoField := ⟨"", available_in_line, some true⟩
      let field' : ProtoField := ⟨field_text, field_len - available_in_line, some false⟩
      match processAux bits fuel (field' :: rest) 0 with
      | none => none
      | some (nf, fin) => some (new_field :: nf, fin)

/-- Fuel sufficient for processAux on a parse-valid protocol: every
loop iteration either consumes a field or strictly shrinks the head
field by at least one bit. -/
def measureFuel (fl : List ProtoField) : Nat :=
  (fl.map (fun f => f.len.toNat)).sum + fl.length + 1

/-- _process_field_list on the state of a Protocol object. -/
def processFieldList (p : Protocol) : Option (List ProtoField × List ProtoField) :=
  processAux p.bits_per_line (measureFuel p.field_list) p.field_list 0

/-! ## Rendering (Protocol.__str__ and its helpers)

The render functions take the attributes of the Protocol object as
explicit arguments (bits = bits_per_line, ph = ph_num_per_bit, cS/cE =
hdr_char_start/hdr_char_end, cO/cEv = hdr_char_fill_odd/
hdr_char_fill_even, cSep = hdr_char_sep, ltr =
do_left_to_right_print); render repackages them from the object. -/

/-- Protocol._get_horizontal: the border line covering the given number
of field bits. -/
def get_horizontal (bits ph : Int) (cS cE cO cEv : String) (ltr : Bool)
    (width : Int) : String :=
  if width ≤ 0 then ""
  else if ltr then
    let a := cS
    let b := pyRepeat (pyRepeat (cEv ++ cO) width) ph
    let c := cE
    a ++ pySliceTo b (-1) ++ c
  else
    let d := pyRepeat (pyRepeat "  " (bits - width)) ph
    let a := cS
    let b := pyRepeat (pyRepeat (cO ++ cEv) width) ph
    let c := cE
    d ++ c ++ pySliceFrom b 1 ++ a

/-- Protocol._get_top_numbers: the optional tens row (newline
terminated) followed by the units row; None when both rows are
disabled. -/
def getTopNumbers (bits ph : Int) (tens units ltr : Bool) : Option String :=
  let line0 :=
    if tens then
      ((List.range bits.toNat).foldl (fun acc i =>
        if pySliceFrom (Nat.repr i) (-1) = "0" then
          if ltr then acc ++ pyRepeat " " (ph * 2 - 1) ++ pySliceTo (Nat.repr i) 1
          else pyRepeat " " (ph * 2 - 1) ++ pySliceTo (Nat.repr i) 1 ++ acc
        else
          if ltr then acc ++ pyRepeat "  " ph
          else pyRepeat "  " ph ++ acc) "") ++ "\n"
    else ""
  let line1 :=
    if units then
      (List.range bits.toNat).foldl (fun acc i =>
        if ltr then acc ++ pyRepeat " " (ph * 2 - 1) ++ pySliceFrom (Nat.repr i) (-1)
        else pyRepeat " " (ph * 2 - 1) ++ pySliceFrom (Nat.repr i) (-1) ++ acc) ""
    else ""
  let result := line0 ++ line1
  if result.length > 0 then some result else none

/-- Number of binary digits of an integer (fuel-bounded halving; the
fuel of 1100 covers every value below 2 to the 1024, the only range
this development evaluates it on). -/
def bitLen : Nat → Int → Nat
  | 0, _ => 0
  | fuel + 1, q => if q ≤ 1 then (if q = 1 then 1 else 0) else bitLen fuel (q / 2) + 1

/-- Round an integer to the grid of multiples of a positive step,
ties to the multiple with an even quotient (IEEE round to nearest,
ties to even, on one binade). -/
def roundGrid (v u : Int) : Int :=
  if 2 * (v % u) < u then v - v % u
  else if u < 2 * (v % u) then v - v % u + u
  else if ((v - v % u) / u) % 2 = 0 then v - v % u else v - v % u + u

/-- 2 to the 53, as a numeral: the largest power-of-two binade in
which every integer is exactly representable as a binary64 double
(written as a numeral so that kernel evaluation of the renderer on
concrete inputs compares big integers directly). -/
def two53 : Int := 9007199254740992

/-- 2 to the 1024, as a numeral: the binary64 overflow threshold (a
rounded magnitude reaching it becomes infinity). -/
def two1024 : Int := 179769313486231590772930519078902473361797697894230657273430081157732675805500963132708477322407536021120113879871393357658789768814416622492847430639474124377767893424865485276302219601246094119453082952085005768838150682342462881473913110540827237163350510684586298239947245938479716304835356329624224137216

/-- The nearest IEEE-754 binary64 value of an integer, as an integer
(a finite double of magnitude at least 2 to the 52 is an integer, and
smaller integers are exactly representable); none when rounding
overflows to infinity.  Below 2 to the 53 the value is exact; above,
it is rounded to its binade grid of spacing 2 to the (bitLen - 53)
with ties to even; a rounded value reaching 2 to the 1024 is the
IEEE overflow to infinity, which CPython surfaces as OverflowError. -/
def roundIntToDouble (q : Int) : Option Int :=
  if q < two53 then some q
  else if two1024 ≤ q then none
  else if two1024 ≤ roundGrid q (2 ^ (bitLen 1100 q - 53)) then none
  else some (roundGrid q (2 ^ (bitLen 1100 q - 53)))

/-- The Python expression int(((field_len/self.bits_per_line)*2)-1)
of source line 434, reached under the guards bits_per_line positive
and dividing field_len, so that the true quotient of the float true
division is the exact integer quotient: that quotient is rounded to a
double (OverflowError when it exceeds the double range), doubled
(exact on doubles, overflowing to infinity at 2 to the 1024, which
int() then rejects), decremented by one in float arithmetic (a
further rounding to the double grid), and truncated by int() (the
identity, the value being an integer). -/
def pyLinesToPrint (field_len bits : Int) : Except String Int :=
  match roundIntToDouble (field_len / bits) with
  | none => .error "OverflowError: integer division result too large for a float"
  | some d =>
    if two1024 ≤ 2 * d then
      .error "OverflowError: cannot convert float infinity to integer"
    else
      match roundIntToDouble (2 * d - 1) with
      | none => .error "OverflowError: cannot convert float infinity to integer"
      | some lines => .ok lines

/-- The Python expression int(lines_to_print/2) of source line 436:
float true division by two, then truncation toward zero.  Below 2 to
the 53 the half is exactly representable and int() truncates it; for
larger values the doubles around the half are exactly the halves of
the doubles around the value (doubling is exact), so the correctly
rounded half is half of the rounded value, an even multiple of its
grid; the overflow arm is unreachable for the arguments this is
applied to (they are below 2 to the 1024) and returns zero. -/
def pyHalfInt (l : Int) : Int :=
  if l < two53 then (if 0 ≤ l then l / 2 else -((-l) / 2))
  else
    match roundIntToDouble l with
    | some d => d / 2
    | none => 0

/-- The label truncation at the top of the str loop: a text longer than
its cell is cut to the cell width, and additionally gets its last
character replaced by a dot when longer than one placeholder unit. -/
def pyTruncate (ph : Int) (text : String) (field_len : Int) : String :=
  if (text.length : Int) > field_len * 2 * ph - 1 then
    let t := pySliceTo text (field_len * 2 * ph - 1)
    if (t.length : Int) > ph then pySliceTo t (-1) ++ "." else t
  else text

/-- The bottom border emitted when a fragment with MF=True has just
completed a printed line, given the length of that fragment and of the
fragment that follows it (proto_fields[p+1] in the source, lines
370-405): a partial border with an open gap when the next fragment
reaches past the line boundary, the normal full border otherwise. -/
def mfBorder (bits ph : Int) (cS cE cO cEv : String) (ltr : Bool)
    (field_len next_len : Int) : String :=
  if next_len > bits - field_len then
    let line_left :=
      if ltr then get_horizontal bits ph cS cE cO cEv ltr (bits - field_len)
      else pySliceFrom (get_horizontal bits ph cS cE cO cEv ltr (bits - field_len))
        (field_len * 2 * ph)
    let line_left := if line_left.length = 0 then cS else line_left
    if next_len ≥ bits then
      let line_center := pyRepeat " " (2 * field_len * ph - 1)
      let line_right := cE
      if ltr then line_left ++ line_center ++ line_right
      else line_right ++ line_center ++ line_left
    else
      let line_center := pyRepeat " " (2 * (next_len - (bits - field_len)) * ph - 1)
      let line_right :=
        if ltr then get_horizontal bits ph cS cE cO cEv ltr (bits - next_len)
        else pySliceFrom (get_horizontal bits ph cS cE cO cEv ltr (bits - next_len))
          (next_len * 2 * ph)
      if ltr then line_left ++ line_center ++ line_right
      else line_right ++ line_center ++ line_left
  else get_horizontal bits ph cS cE cO cEv ltr bits

/-- The stacked rows of a full-width multi-line field (source lines
438-455): rows alternate separator-capped content rows and
start/end-capped blank border rows, with the text centered in the
middle row. -/
def bigFieldRows (bits ph : Int) (cS cE cSep : String) (field_text : String)
    (ltp central : Int) : List String :=
  (List.range ltp.toNat).map (fun i =>
    let start_line := if i % 2 = 1 then cS else cSep
    let end_line := if i % 2 = 1 then cE else cSep
    if (i : Int) = central then
      start_line ++ pyCenter field_text (bits * 2 * ph - 1) ++ end_line
    else
      start_line ++ pyRepeat " " (bits * 2 * ph - 1) ++ end_line)

/-- The while loop of Protocol.__str__ over the processed fragment
list, carrying bits_in_line, fields_done, current_line and the
accumulated lines.  The two possible runtime failures of the source
are errors: the proto_fields[p+1] access past the end of the list, and
the assert False for a fragment that fits neither the current line nor
the aligned multi-line case. -/
def strLoop (bits ph : Int) (cS cE cO cEv cSep : String) (ltr : Bool)
    (total : Nat) :
    List ProtoField → Int → Nat → String → List String →
    Except String (List String)
  | [], _, _, _, lines => .ok lines
  | field :: rest, bits_in_line, fields_done, current_line, lines =>
    let field_text := field.text
    let field_len := field.len
    let field_mf := field.MF = some true
    let field_text := pyTruncate ph field_text field_len
    if bits - bits_in_line ≥ field_len then
      let current_line :=
        if bits_in_line = 0 then current_line ++ cSep else current_line
      let current_line :=
        if ltr then current_line ++ pyCenter field_text (field_len * 2 * ph - 1)
        else pyCenter field_text (field_len * 2 * ph - 1) ++ current_line
      let bits_in_line := bits_in_line + field_len
      let fields_done := fields_done + 1
      if bits_in_line = bits then
        let current_line :=
          if ltr then current_line ++ cSep else cSep ++ current_line
        let lines := lines ++ [current_line]
        if field_mf then
          match rest.head? with
          | none => .error "IndexError: list index out of range"
          | some nxt =>
            strLoop bits ph cS cE cO cEv cSep ltr total rest 0 fields_done ""
              (lines ++ [mfBorder bits ph cS cE cO cEv ltr field_len nxt.len])
        else
          strLoop bits ph cS cE cO cEv cSep ltr total rest 0 fields_done ""
            (lines ++ [get_horizontal bits ph cS cE cO cEv ltr bits])
      else if fields_done = total then
        let current_line :=
          if ltr then current_line ++ cSep else cSep ++ current_line
        let lines :=
          if ltr then lines ++ [current_line]
          else lines ++ [pyRepeat " " ((bits - bits_in_line) * 2 * ph) ++ current_line]
        let lines := lines ++ [get_horizontal bits ph cS cE cO cEv ltr bits_in_line]
        strLoop bits ph cS cE cO cEv cSep ltr total rest bits_in_line fields_done
          current_line lines
      else
        let current_line :=
          if ltr then current_line ++ cSep else cSep ++ current_line
        strLoop bits ph cS cE cO cEv cSep ltr total rest bits_in_line fields_done
          current_line lines
    else
      if bits_in_line = 0 then
        if field_len % bits = 0 then
          match pyLinesToPrint field_len bits with
          | .error e => .error e
          | .ok lines_to_print =>
            let central_line := pyHalfInt lines_to_print
            let rows := bigFieldRows bits ph cS cE cSep field_text lines_to_print central_line
            let lines := lines ++ rows ++
              (if 1 ≤ lines_to_print then [get_horizontal bits ph cS cE cO cEv ltr bits] else [])
            let fields_done :=
              if 1 ≤ lines_to_print then fields_done + 1 else fields_done
            strLoop bits ph cS cE cO cEv cSep ltr total rest bits_in_line fields_done
              current_line lines
        else
          strLoop bits ph cS cE cO cEv cSep ltr total rest bits_in_line fields_done
            current_line lines
      else .error "AssertionError"

/-- Protocol.__str__ on explicit attributes: process the field list,
emit the optional top numbers and the top border, run the fragment
loop, and join the lines.  Returns the rendered text together with the
final (mutated) state of the field list. -/
def renderCore (bits ph : Int) (cS cE cO cEv cSep : String)
    (tens units ltr : Bool) (fl : List ProtoField) :
    Except String (String × List ProtoField) :=
  match processAux bits (measureFuel fl) fl 0 with
  | none => .error "nontermination in _process_field_list"
  | some (proto_fields, fin) =>
    let lines :=
      match getTopNumbers bits ph tens units ltr with
      | some n => [n]
      | none => []
    let lines := lines ++ [get_horizontal bits ph cS cE cO cEv ltr bits]
    match strLoop bits ph cS cE cO cEv cSep ltr proto_fields.length proto_fields
        0 0 "" lines with
    | .error e => .error e
    | .ok ls => .ok (pyJoin "\n" ls, fin)

/-- Protocol.__str__ on a Protocol object: the rendered text, together
with the state of the object after the call (rendering mutates the
entries of self.field_list through _process_field_list). -/
def render (p : Protocol) : Except String (String × Protocol) :=
  match renderCore p.bits_per_line p.ph_num_per_bit p.hdr_char_start
      p.hdr_char_end p.hdr_char_fill_odd p.hdr_char_fill_even p.hdr_char_sep
      p.do_print_top_tens p.do_print_top_units p.do_left_to_right_print
      p.field_list with
  | .ok (s, fin) => .ok (s, { p with field_list := fin })
  | .error e => .error e

/-- Calling str twice in a row on the same object: the two returned
texts (second call on the object state left by the first call). -/
def renderTwice (p : Protocol) : Option (String × String) :=
  match render p with
  | .ok (s1, p1) =>
    match render p1 with
    | .ok (s2, _) => some (s1, s2)
    | .error _ => none
  | .error _ => none

/-! ## Invariants of the fragment stream -/

/-- The view of a field dictionary that _process_field_list branches
on and copies into its output: the text and len values. -/
def projTL (f : ProtoField) : String × Int := (f.text, f.len)

/-- Replay invariant of a fragment stream starting at offset b of a
line of the given width: every fragment either fits in the remaining
space of the line (and an MF fragment additionally completes the line
and has a successor), or starts a full-width multi-line block at a
line boundary with a row-count conversion that stays within float
range.  Exactly the condition under which the str loop reaches none
of its failure points: the assert False branch, the out-of-range
successor lookup, and the OverflowError of the float row-count
conversion. -/
def Safe (bits : Int) : List ProtoField → Int → Prop
  | [], _ => True
  | f :: rest, b =>
    (f.len ≤ bits - b ∧
      (f.MF = some true → b + f.len = bits ∧ rest ≠ []) ∧
      Safe bits rest (if b + f.len = bits then 0 else b + f.len)) ∨
    (b = 0 ∧ bits < f.len ∧ f.len % bits = 0 ∧
      (∃ l, pyLinesToPrint f.len bits = .ok l) ∧ Safe bits rest 0)

/-- How far _process_field_list can mutate one field dictionary: the
final entry has MF set to False, a bit length no larger than the
original, and either the original text or the empty text. -/
def mutBound (f g : ProtoField) : Prop :=
  g.MF = some false ∧ g.len ≤ f.len ∧ (g.text = f.text ∨ g.text = "")

/-- Formalization of the claim text: when a continuing fragment
completes a printed line, a partial border is emitted exactly when the
next fragment reaches past the line boundary (its overlap into this
row is positive); the partial border covers the span of the bits
before the continued field (rendered as the bare start character when
that span is empty), then an open gap as wide as the overlap clipped
to the remaining capacity of the row, then border characters for the
rest of the row, or the end character alone when the gap reaches the
end; otherwise the normal full border is emitted. -/
def specContinuationBorder (bits ph : Int) (cS cE cO cEv : String)
    (field_len next_len : Int) : String :=
  let overlap := next_len - (bits - field_len)
  if overlap ≤ 0 then get_horizontal bits ph cS cE cO cEv true bits
  else
    let priorSpan := bits - field_len
    let leftBorder :=
      if priorSpan = 0 then cS
      else get_horizontal bits ph cS cE cO cEv true priorSpan
    let gap := pyRepeat " " (2 * (min overlap field_len) * ph - 1)
    let rightBorder :=
      if next_len ≥ bits then cE
      else get_horizontal bits ph cS cE cO cEv true (bits - next_len)
    leftBorder ++ gap ++ rightBorder

/-! ## Concrete inputs used by witnesses and counterexamples -/

/-- The Protocol object parsed from the spec string A:40 (one 40-bit
field, default 32 bits per line, so the field is split during
rendering). -/
def pA40 : Protocol := { defaultProtocol with
  field_list := [⟨"A", 40, none⟩] }

/-- The Protocol object parsed from A:4,B:4?bits=8 (no field needs a
split). -/
def pC1w : Protocol := { defaultProtocol with
  bits_per_line := 8
  field_list := [⟨"A", 4, none⟩, ⟨"B", 4, none⟩] }

/-- The state of pC1w after one render: the field entries have gained
MF=False but keep their text and length. -/
def pC1w1 : Protocol := { defaultProtocol with
  bits_per_line := 8
  field_list := [⟨"A", 4, some false⟩, ⟨"B", 4, some false⟩] }

/-- The Protocol object parsed from AB:12?bits=8 (the field is split
into an 8-bit and a 4-bit fragment). -/
def pAB12 : Protocol := { defaultProtocol with
  bits_per_line := 8
  field_list := [⟨"AB", 12, none⟩] }

/-- The Protocol object parsed from A:64?bits=32 (a full-width
multi-line field). -/
def pA64 : Protocol := { defaultProtocol with
  bits_per_line := 32
  field_list := [⟨"A", 64, none⟩] }

/-- The Protocol object parsed from A:4,B:12?bits=8. -/
def pC4 : Protocol := { defaultProtocol with
  bits_per_line := 8
  field_list := [⟨"A", 4, none⟩, ⟨"B", 12, none⟩] }

/-- A spec string with a single field of 2 to the 1100 bits (the
decimal digits of 2 to the 1100 after the colon): parse-valid, an
exact multiple of the default 32 bits per line, but wide enough that
the float row-count conversion of the renderer overflows. -/
def specHuge : String := "A:13582985290493858492773514283592667786034938469317445497485196697278130927542418487205392083207560592298578262953847383475038725543234929971155548342800628721885763499406390331782864144164680730766837160526223176512798435772129956553355286032203080380775759732320198985094884004069116123084147875437183658467465148948790552744165376"

/-- The Protocol object parsed from specHuge. -/
def pHuge : Protocol := { defaultProtocol with
  field_list := [⟨"A", 13582985290493858492773514283592667786034938469317445497485196697278130927542418487205392083207560592298578262953847383475038725543234929971155548342800628721885763499406390331782864144164680730766837160526223176512798435772129956553355286032203080380775759732320198985094884004069116123084147875437183658467465148948790552744165376, none⟩] }

/-- The Protocol object parsed from the spec :8. -/
def pColon8 : Protocol := { defaultProtocol with
  field_list := [⟨"", 8, none⟩] }

/-- measureFuel on a cons cell. -/
theorem measureFuel_cons (f : ProtoField) (l : List ProtoField) :
    measureFuel (f :: l) = f.len.toNat + measureFuel l + 1 := by
  simp [measureFuel]
  omega

/-- The fragment list produced for a nonempty field list is nonempty. -/
theorem processAux_ne_nil (bits : Int) (fuel : Nat) (f : ProtoField)
    (rest : List ProtoField) (b : Int) (nf fin : List ProtoField)
    (h : processAux bits fuel (f :: rest) b = some (nf, fin)) : nf ≠ [] := by
  cases fuel with
  | zero => simp [processAux] at h
  | succ fuel =>
    simp only [processAux] at h
    split at h
    · split at h
      · exact absurd h (by simp)
      · rename_i nf' fin' heq
        simp only [Option.some.injEq, Prod.mk.injEq] at h
        simp [← h.1]
    · split at h
      · split at h
        · exact absurd h (by simp)
        · rename_i nf' fin' heq
          simp only [Option.some.injEq, Prod.mk.injEq] at h
          simp [← h.1]
      · split at h
        · split at h
          · exact absurd h (by simp)
          · rename_i nf' fin' heq
            simp only [Option.some.injEq, Prod.mk.injEq] at h
            simp [← h.1]
        · split at h
          · exact absurd h (by simp)
          · rename_i nf' fin' heq
            simp only [Option.some.injEq, Prod.mk.injEq] at h
            simp [← h.1]

/-- On a parse-valid state (positive line width, positive field
lengths, offset inside the line) the loop of _process_field_list
terminates within measureFuel steps. -/
theorem processAux_total (bits : Int) :
    ∀ (fuel : Nat) (fl : List ProtoField) (b : Int),
    1 ≤ bits → 0 ≤ b → b < bits → (∀ f ∈ fl, 1 ≤ f.len) →
    measureFuel fl ≤ fuel →
    ∃ out, processAux bits fuel fl b = some out := by
  intro fuel
  induction fuel with
  | zero =>
    intro fl b _ _ _ _ hm
    cases fl with
    | nil => exact ⟨([], []), rfl⟩
    | cons f rest => rw [measureFuel_cons] at hm; omega
  | succ fuel ih =>
    intro fl b hb hb0 hblt hlen hm
    cases fl with
    | nil => exact ⟨([], []), rfl⟩
    | cons f rest =>
      have hflen : 1 ≤ f.len := hlen f (by simp)
      have hrest : ∀ g ∈ rest, 1 ≤ g.len := fun g hg => hlen g (by simp [hg])
      rw [measureFuel_cons] at hm
      simp only [processAux]
      by_cases hfit : bits - b ≥ f.len
      · rw [if_pos hfit]
        have hb2 : 0 ≤ b + f.len := by omega
        by_cases hfull : b + f.len = bits
        · rw [if_pos hfull]
          obtain ⟨out, hout⟩ := ih rest 0 hb (by omega) (by omega) hrest (by omega)
          rw [hout]
          exact ⟨_, rfl⟩
        · rw [if_neg hfull]
          obtain ⟨out, hout⟩ := ih rest (b + f.len) hb (by omega) (by omega) hrest (by omega)
          rw [hout]
          exact ⟨_, rfl⟩
      · rw [if_neg hfit]
        by_cases hc1 : b = 0 ∧ f.len % bits = 0
        · rw [if_pos hc1]
          obtain ⟨out, hout⟩ := ih rest 0 hb (by omega) (by omega) hrest (by omega)
          rw [hout]
          exact ⟨_, rfl⟩
        · rw [if_neg hc1]
          have havail : 1 ≤ bits - b := by omega
          have hsplitlen : 1 ≤ f.len - (bits - b) := by omega
          have hm' : measureFuel (⟨"", f.len - (bits - b), some false⟩ :: rest) ≤ fuel := by
            rw [measureFuel_cons]
            dsimp only
            omega
          have hm'' : measureFuel (⟨f.text, f.len - (bits - b), some false⟩ :: rest) ≤ fuel := by
            rw [measureFuel_cons]
            dsimp only
            omega
          by_cases hbig : bits - b ≥ f.len - (bits - b)
          · rw [if_pos hbig]
            obtain ⟨out, hout⟩ := ih (⟨"", f.len - (bits - b), some false⟩ :: rest) 0 hb
              (by omega) (by omega)
              (by intro g hg; rcases List.mem_cons.mp hg with h1 | h2
                  · rw [h1]; exact hsplitlen
                  · exact hrest g h2)
              hm'
            rw [hout]
            exact ⟨_, rfl⟩
          · rw [if_neg hbig]
            obtain ⟨out, hout⟩ := ih (⟨f.text, f.len - (bits - b), some false⟩ :: rest) 0 hb
              (by omega) (by omega)
              (by intro g hg; rcases List.mem_cons.mp hg with h1 | h2
                  · rw [h1]; exact hsplitlen
                  · exact hrest g h2)
              hm''
            rw [hout]
            exact ⟨_, rfl⟩

/-- bitLen is bounded by any exponent bounding its argument (given
enough fuel). -/
theorem bitLen_le : ∀ (fuel : Nat) (q : Int) (m : Nat),
    q < 2 ^ m → m ≤ fuel → bitLen fuel q ≤ m := by
  intro fuel
  induction fuel with
  | zero =>
    intro q m _ _
    simp [bitLen]
  | succ fuel ih =>
    intro q m hq hm
    unfold bitLen
    by_cases h1 : q ≤ 1
    · rw [if_pos h1]
      by_cases h2 : q = 1
      · rw [if_pos h2]
        rcases m with _ | m
        · exfalso
          norm_num at hq
          omega
        · omega
      · rw [if_neg h2]
        exact Nat.zero_le m
    · rw [if_neg h1]
      rcases m with _ | m
      · exfalso
        norm_num at hq
        omega
      · rcases m with _ | m
        · exfalso
          norm_num at hq
          omega
        · have hpow : (2 : Int) ^ (m + 2) = 2 * 2 ^ (m + 1) := by ring
          have hq2 : q / 2 < 2 ^ (m + 1) := by omega
          have := ih (q / 2) (m + 1) hq2 (by omega)
          omega

/-- Grid rounding never moves a value up by a full step. -/
theorem roundGrid_le (v u : Int) (hu : 0 < u) : roundGrid v u ≤ v + u := by
  unfold roundGrid
  have hr : 0 ≤ v % u := Int.emod_nonneg v (ne_of_gt hu)
  split_ifs <;> omega

/-- The numeral two53 is 2 to the 53. -/
theorem two53_eq : two53 = 2 ^ 53 := by norm_num [two53]

/-- The numeral two1024 is 2 to the 1024. -/
theorem two1024_eq : two1024 = 2 ^ 1024 := by norm_num [two1024]

/-- An integer below the top binade never rounds to infinity. -/
theorem roundIntToDouble_isSome_of_lt (v : Int) (h : v < 2 ^ 1023) :
    ∃ d, roundIntToDouble v = some d := by
  unfold roundIntToDouble
  rw [two53_eq, two1024_eq]
  by_cases h1 : v < 2 ^ 53
  · rw [if_pos h1]
    exact ⟨v, rfl⟩
  · rw [if_neg h1]
    have hc : (2 : Int) ^ 1023 ≤ 2 ^ 1024 := by norm_num
    rw [if_neg (show ¬((2 : Int) ^ 1024 ≤ v) from by omega)]
    have hu : (0 : Int) < 2 ^ (bitLen 1100 v - 53) := pow_pos (by norm_num) _
    have hble : bitLen 1100 v ≤ 1023 := bitLen_le 1100 v 1023 h (by norm_num)
    have hule : (2 : Int) ^ (bitLen 1100 v - 53) ≤ 2 ^ 970 := by
      apply pow_le_pow_right (by norm_num)
      omega
    have hrg := roundGrid_le v (2 ^ (bitLen 1100 v - 53)) hu
    have hbig : (2 : Int) ^ 1023 + 2 ^ 970 ≤ 2 ^ 1024 := by norm_num
    rw [if_neg (show ¬((2 : Int) ^ 1024 ≤ roundGrid v (2 ^ (bitLen 1100 v - 53)))
      from by omega)]
    exact ⟨_, rfl⟩

/-- On a field shorter than 2 to the 53 bits, the row-count conversion
of source line 434 stays within float range. -/
theorem pyLinesToPrint_ok (len bits : Int) (hb : 1 ≤ bits) (h0 : 0 ≤ len)
    (hlt : len < 2 ^ 53) : ∃ l, pyLinesToPrint len bits = .ok l := by
  have hq0 : 0 ≤ len / bits := Int.ediv_nonneg h0 (by omega)
  have hqle : len / bits ≤ len := Int.ediv_le_self bits h0
  unfold pyLinesToPrint
  rw [show roundIntToDouble (len / bits) = some (len / bits) from by
    unfold roundIntToDouble
    rw [two53_eq]
    rw [if_pos (show len / bits < 2 ^ 53 from by omega)]]
  dsimp only
  rw [two1024_eq]
  have h54 : (2 : Int) * 2 ^ 53 ≤ 2 ^ 1024 := by norm_num
  rw [if_neg (show ¬((2 : Int) ^ 1024 ≤ 2 * (len / bits)) from by omega)]
  have h55 : (2 : Int) * 2 ^ 53 ≤ 2 ^ 1023 := by norm_num
  obtain ⟨d, hd⟩ := roundIntToDouble_isSome_of_lt (2 * (len / bits) - 1) (by omega)
  rw [hd]
  exact ⟨d, rfl⟩

/-- On a parse-valid state, the fragment list produced by
_process_field_list satisfies the replay invariant Safe. -/
theorem processAux_safe (bits : Int) :
    ∀ (fuel : Nat) (fl : List ProtoField) (b : Int) (nf fin : List ProtoField),
    1 ≤ bits → 0 ≤ b → b < bits → (∀ f ∈ fl, 1 ≤ f.len) →
    (∀ f ∈ fl, f.len < 2 ^ 53) →
    processAux bits fuel fl b = some (nf, fin) →
    Safe bits nf b := by
  intro fuel
  induction fuel with
  | zero =>
    intro fl b nf fin _ _ _ _ _ h
    cases fl with
    | nil =>
      simp only [processAux, Option.some.injEq, Prod.mk.injEq] at h
      rw [← h.1]
      trivial
    | cons f rest => simp [processAux] at h
  | succ fuel ih =>
    intro fl b nf fin hb hb0 hblt hlen hsmall h
    cases fl with
    | nil =>
      simp only [processAux, Option.some.injEq, Prod.mk.injEq] at h
      rw [← h.1]
      trivial
    | cons f rest =>
      have hflen : 1 ≤ f.len := hlen f (by simp)
      have hrest : ∀ g ∈ rest, 1 ≤ g.len := fun g hg => hlen g (by simp [hg])
      have hflt : f.len < 2 ^ 53 := hsmall f (by simp)
      have hsmallrest : ∀ g ∈ rest, g.len < 2 ^ 53 :=
        fun g hg => hsmall g (by simp [hg])
      simp only [processAux] at h
      by_cases hfit : bits - b ≥ f.len
      · rw [if_pos hfit] at h
        cases hrec : processAux bits fuel rest
            (if b + f.len = bits then 0 else b + f.len) with
        | none =>
          rw [show (({ f with MF := some false } : ProtoField)).len = f.len from rfl,
            hrec] at h
          simp at h
        | some out =>
          obtain ⟨nf', fin'⟩ := out
          rw [show (({ f with MF := some false } : ProtoField)).len = f.len from rfl,
            hrec] at h
          simp only [Option.some.injEq, Prod.mk.injEq] at h
          rw [← h.1]
          refine Or.inl ⟨hfit, ?_, ?_⟩
          · intro hmf
            exact absurd hmf (by simp)
          · by_cases hfull : b + f.len = bits
            · rw [if_pos hfull]
              rw [if_pos hfull] at hrec
              exact ih rest 0 nf' fin' hb (by omega) (by omega) hrest hsmallrest hrec
            · rw [if_neg hfull]
              rw [if_neg hfull] at hrec
              exact ih rest (b + f.len) nf' fin' hb (by omega) (by omega) hrest
                hsmallrest hrec
      · rw [if_neg hfit] at h
        by_cases hc1 : b = 0 ∧ f.len % bits = 0
        · rw [if_pos hc1] at h
          cases hrec : processAux bits fuel rest 0 with
          | none => rw [hrec] at h; simp at h
          | some out =>
            obtain ⟨nf', fin'⟩ := out
            rw [hrec] at h
            simp only [Option.some.injEq, Prod.mk.injEq] at h
            rw [← h.1]
            exact Or.inr ⟨hc1.1, by show bits < f.len; omega, hc1.2,
              pyLinesToPrint_ok f.len bits hb (by omega) hflt,
              ih rest 0 nf' fin' hb (by omega) (by omega) hrest hsmallrest hrec⟩
        · rw [if_neg hc1] at h
          have hlen' : ∀ g ∈ (⟨"", f.len - (bits - b), some false⟩ :: rest :
              List ProtoField), 1 ≤ g.len := by
            intro g hg
            rcases List.mem_cons.mp hg with h1 | h2
            · rw [h1]; dsimp only; omega
            · exact hrest g h2
          have hlen'' : ∀ g ∈ (⟨f.text, f.len - (bits - b), some false⟩ :: rest :
              List ProtoField), 1 ≤ g.len := by
            intro g hg
            rcases List.mem_cons.mp hg with h1 | h2
            · rw [h1]; dsimp only; omega
            · exact hrest g h2
          have hsmall' : ∀ g ∈ (⟨"", f.len - (bits - b), some false⟩ :: rest :
              List ProtoField), g.len < 2 ^ 53 := by
            intro g hg
            rcases List.mem_cons.mp hg with h1 | h2
            · rw [h1]; dsimp only; omega
            · exact hsmallrest g h2
          have hsmall'' : ∀ g ∈ (⟨f.text, f.len - (bits - b), some false⟩ :: rest :
              List ProtoField), g.len < 2 ^ 53 := by
            intro g hg
            rcases List.mem_cons.mp hg with h1 | h2
            · rw [h1]; dsimp only; omega
            · exact hsmallrest g h2
          by_cases hbig : bits - b ≥ f.len - (bits - b)
          · rw [if_pos hbig] at h
            cases hrec : processAux bits fuel
                (⟨"", f.len - (bits - b), some false⟩ :: rest) 0 with
            | none => rw [hrec] at h; simp at h
            | some out =>
              obtain ⟨nf', fin'⟩ := out
              rw [hrec] at h
              simp only [Option.some.injEq, Prod.mk.injEq] at h
              rw [← h.1]
              refine Or.inl ⟨by first | omega | (dsimp only; omega), ?_, ?_⟩
              · intro _
                refine ⟨by first | omega | (dsimp only; omega), ?_⟩
                exact processAux_ne_nil bits fuel _ rest 0 nf' fin' hrec
              · rw [if_pos (by first | omega | (dsimp only; omega))]
                exact ih _ 0 nf' fin' hb (by omega) (by omega) hlen' hsmall' hrec
          · rw [if_neg hbig] at h
            cases hrec : processAux bits fuel
                (⟨f.text, f.len - (bits - b), some false⟩ :: rest) 0 with
            | none => rw [hrec] at h; simp at h
            | some out =>
              obtain ⟨nf', fin'⟩ := out
              rw [hrec] at h
              simp only [Option.some.injEq, Prod.mk.injEq] at h
              rw [← h.1]
              refine Or.inl ⟨by first | omega | (dsimp only; omega), ?_, ?_⟩
              · intro _
                refine ⟨by first | omega | (dsimp only; omega), ?_⟩
                exact processAux_ne_nil bits fuel _ rest 0 nf' fin' hrec
              · rw [if_pos (by first | omega | (dsimp only; omega))]
                exact ih _ 0 nf' fin' hb (by omega) (by omega) hlen'' hsmall'' hrec

/-- Every fragment in the output of _process_field_list is at most one
line wide, except a full-width multi-line fragment, which is wider
than a line but an exact multiple of the line width. -/
theorem processAux_widths (bits : Int) :
    ∀ (fuel : Nat) (fl : List ProtoField) (b : Int) (nf fin : List ProtoField),
    1 ≤ bits → 0 ≤ b → b < bits → (∀ f ∈ fl, 0 ≤ f.len) →
    processAux bits fuel fl b = some (nf, fin) →
    ∀ f ∈ nf, f.len ≤ bits ∨ (bits < f.len ∧ f.len % bits = 0) := by
  intro fuel
  induction fuel with
  | zero =>
    intro fl b nf fin _ _ _ _ h
    cases fl with
    | nil =>
      simp only [processAux, Option.some.injEq, Prod.mk.injEq] at h
      rw [← h.1]
      simp
    | cons f rest => simp [processAux] at h
  | succ fuel ih =>
    intro fl b nf fin hb hb0 hblt hlen h
    cases fl with
    | nil =>
      simp only [processAux, Option.some.injEq, Prod.mk.injEq] at h
      rw [← h.1]
      simp
    | cons f rest =>
      have hflen : 0 ≤ f.len := hlen f (by simp)
      have hrest : ∀ g ∈ rest, 0 ≤ g.len := fun g hg => hlen g (by simp [hg])
      simp only [processAux] at h
      by_cases hfit : bits - b ≥ f.len
      · rw [if_pos hfit] at h
        cases hrec : processAux bits fuel rest
            (if b + f.len = bits then 0 else b + f.len) with
        | none => rw [hrec] at h; simp at h
        | some out =>
          obtain ⟨nf', fin'⟩ := out
          rw [hrec] at h
          simp only [Option.some.injEq, Prod.mk.injEq] at h
          rw [← h.1]
          intro g hg
          rcases List.mem_cons.mp hg with h1 | h2
          · rw [h1]; left; show f.len ≤ bits; omega
          · by_cases hfull : b + f.len = bits
            · rw [if_pos hfull] at hrec
              exact ih rest 0 nf' fin' hb (by omega) (by omega) hrest hrec g h2
            · rw [if_neg hfull] at hrec
              exact ih rest (b + f.len) nf' fin' hb (by omega) (by omega) hrest hrec g h2
      · rw [if_neg hfit] at h
        by_cases hc1 : b = 0 ∧ f.len % bits = 0
        · rw [if_pos hc1] at h
          cases hrec : processAux bits fuel rest 0 with
          | none => rw [hrec] at h; simp at h
          | some out =>
            obtain ⟨nf', fin'⟩ := out
            rw [hrec] at h
            simp only [Option.some.injEq, Prod.mk.injEq] at h
            rw [← h.1]
            intro g hg
            rcases List.mem_cons.mp hg with h1 | h2
            · rw [h1]; right; exact ⟨by show bits < f.len; omega, hc1.2⟩
            · exact ih rest 0 nf' fin' hb (by omega) (by omega) hrest hrec g h2
        · rw [if_neg hc1] at h
          have hrest1 : ∀ g ∈ (⟨"", f.len - (bits - b), some false⟩ :: rest :
              List ProtoField), 0 ≤ g.len := by
            intro g hg
            rcases List.mem_cons.mp hg with h1 | h2
            · rw [h1]; show (0:Int) ≤ f.len - (bits - b); omega
            · exact hrest g h2
          have hrest2 : ∀ g ∈ (⟨f.text, f.len - (bits - b), some false⟩ :: rest :
              List ProtoField), 0 ≤ g.len := by
            intro g hg
            rcases List.mem_cons.mp hg with h1 | h2
            · rw [h1]; show (0:Int) ≤ f.len - (bits - b); omega
            · exact hrest g h2
          by_cases hbig : bits - b ≥ f.len - (bits - b)
          · rw [if_pos hbig] at h
            cases hrec : processAux bits fuel
                (⟨"", f.len - (bits - b), some false⟩ :: rest) 0 with
            | none => rw [hrec] at h; simp at h
            | some out =>
              obtain ⟨nf', fin'⟩ := out
              rw [hrec] at h
              simp only [Option.some.injEq, Prod.mk.injEq] at h
              rw [← h.1]
              intro g hg
              rcases List.mem_cons.mp hg with h1 | h2
              · rw [h1]; left; show bits - b ≤ bits; omega
              · exact ih _ 0 nf' fin' hb (by omega) (by omega) hrest1 hrec g h2
          · rw [if_neg hbig] at h
            cases hrec : processAux bits fuel
                (⟨f.text, f.len - (bits - b), some false⟩ :: rest) 0 with
            | none => rw [hrec] at h; simp at h
            | some out =>
              obtain ⟨nf', fin'⟩ := out
              rw [hrec] at h
              simp only [Option.some.injEq, Prod.mk.injEq] at h
              rw [← h.1]
              intro g hg
              rcases List.mem_cons.mp hg with h1 | h2
              · rw [h1]; left; show bits - b ≤ bits; omega
              · exact ih _ 0 nf' fin' hb (by omega) (by omega) hrest2 hrec g h2

/-- The total width of the emitted fragments equals the total bit
length of the input fields. -/
theorem processAux_sum (bits : Int) :
    ∀ (fuel : Nat) (fl : List ProtoField) (b : Int) (nf fin : List ProtoField),
    processAux bits fuel fl b = some (nf, fin) →
    (nf.map (fun f => f.len)).sum = (fl.map (fun f => f.len)).sum := by
  intro fuel
  induction fuel with
  | zero =>
    intro fl b nf fin h
    cases fl with
    | nil =>
      simp only [processAux, Option.some.injEq, Prod.mk.injEq] at h
      rw [← h.1]
    | cons f rest => simp [processAux] at h
  | succ fuel ih =>
    intro fl b nf fin h
    cases fl with
    | nil =>
      simp only [processAux, Option.some.injEq, Prod.mk.injEq] at h
      rw [← h.1]
    | cons f rest =>
      simp only [processAux] at h
      by_cases hfit : bits - b ≥ f.len
      · rw [if_pos hfit] at h
        cases hrec : processAux bits fuel rest
            (if b + f.len = bits then 0 else b + f.len) with
        | none => rw [hrec] at h; simp at h
        | some out =>
          obtain ⟨nf', fin'⟩ := out
          rw [hrec] at h
          simp only [Option.some.injEq, Prod.mk.injEq] at h
          rw [← h.1]
          simp only [List.map_cons, List.sum_cons]
          rw [ih rest _ nf' fin' hrec]
      · rw [if_neg hfit] at h
        by_cases hc1 : b = 0 ∧ f.len % bits = 0
        · rw [if_pos hc1] at h
          cases hrec : processAux bits fuel rest 0 with
          | none => rw [hrec] at h; simp at h
          | some out =>
            obtain ⟨nf', fin'⟩ := out
            rw [hrec] at h
            simp only [Option.some.injEq, Prod.mk.injEq] at h
            rw [← h.1]
            simp only [List.map_cons, List.sum_cons]
            rw [ih rest _ nf' fin' hrec]
        · rw [if_neg hc1] at h
          by_cases hbig : bits - b ≥ f.len - (bits - b)
          · rw [if_pos hbig] at h
            cases hrec : processAux bits fuel
                (⟨"", f.len - (bits - b), some false⟩ :: rest) 0 with
            | none => rw [hrec] at h; simp at h
            | some out =>
              obtain ⟨nf', fin'⟩ := out
              rw [hrec] at h
              simp only [Option.some.injEq, Prod.mk.injEq] at h
              rw [← h.1]
              have := ih _ _ nf' fin' hrec
              simp only [List.map_cons, List.sum_cons] at this ⊢
              rw [this]
              show bits - b + (f.len - (bits - b) + _) = _
              ring
          · rw [if_neg hbig] at h
            cases hrec : processAux bits fuel
                (⟨f.text, f.len - (bits - b), some false⟩ :: rest) 0 with
            | none => rw [hrec] at h; simp at h
            | some out =>
              obtain ⟨nf', fin'⟩ := out
              rw [hrec] at h
              simp only [Option.some.injEq, Prod.mk.injEq] at h
              rw [← h.1]
              have := ih _ _ nf' fin' hrec
              simp only [List.map_cons, List.sum_cons] at this ⊢
              rw [this]
              show bits - b + (f.len - (bits - b) + _) = _
              ring

/-- The fragments appear in input order: the output factors into one
consecutive group per input field, each group summing to the bit
length of that field. -/
theorem processAux_groups (bits : Int) :
    ∀ (fuel : Nat) (fl : List ProtoField) (b : Int) (nf fin : List ProtoField),
    processAux bits fuel fl b = some (nf, fin) →
    ∃ gss : List (List ProtoField), nf = gss.flatten ∧
      List.Forall₂ (fun fld grp => (grp.map (fun x => x.len)).sum = fld.len) fl gss := by
  intro fuel
  induction fuel with
  | zero =>
    intro fl b nf fin h
    cases fl with
    | nil =>
      simp only [processAux, Option.some.injEq, Prod.mk.injEq] at h
      exact ⟨[], by simp [← h.1], List.Forall₂.nil⟩
    | cons f rest => simp [processAux] at h
  | succ fuel ih =>
    intro fl b nf fin h
    cases fl with
    | nil =>
      simp only [processAux, Option.some.injEq, Prod.mk.injEq] at h
      exact ⟨[], by simp [← h.1], List.Forall₂.nil⟩
    | cons f rest =>
      simp only [processAux] at h
      by_cases hfit : bits - b ≥ f.len
      · rw [if_pos hfit] at h
        cases hrec : processAux bits fuel rest
            (if b + f.len = bits then 0 else b + f.len) with
        | none => rw [hrec] at h; simp at h
        | some out =>
          obtain ⟨nf', fin'⟩ := out
          rw [hrec] at h
          simp only [Option.some.injEq, Prod.mk.injEq] at h
          obtain ⟨gss', hflat, hfa⟩ := ih rest _ nf' fin' hrec
          refine ⟨[{ f with MF := some false }] :: gss', ?_, ?_⟩
          · rw [← h.1, hflat]
            simp
          · exact List.Forall₂.cons (by simp) hfa
      · rw [if_neg hfit] at h
        by_cases hc1 : b = 0 ∧ f.len % bits = 0
        · rw [if_pos hc1] at h
          cases hrec : processAux bits fuel rest 0 with
          | none => rw [hrec] at h; simp at h
          | some out =>
            obtain ⟨nf', fin'⟩ := out
            rw [hrec] at h
            simp only [Option.some.injEq, Prod.mk.injEq] at h
            obtain ⟨gss', hflat, hfa⟩ := ih rest _ nf' fin' hrec
            refine ⟨[{ f with MF := some false }] :: gss', ?_, ?_⟩
            · rw [← h.1, hflat]
              simp
            · exact List.Forall₂.cons (by simp) hfa
        · rw [if_neg hc1] at h
          by_cases hbig : bits - b ≥ f.len - (bits - b)
          · rw [if_pos hbig] at h
            cases hrec : processAux bits fuel
                (⟨"", f.len - (bits - b), some false⟩ :: rest) 0 with
            | none => rw [hrec] at h; simp at h
            | some out =>
              obtain ⟨nf', fin'⟩ := out
              rw [hrec] at h
              simp only [Option.some.injEq, Prod.mk.injEq] at h
              obtain ⟨gss', hflat, hfa⟩ := ih _ _ nf' fin' hrec
              cases hfa with
              | cons hg hgs =>
                rename_i grp gs
                refine ⟨(⟨f.text, bits - b, some true⟩ :: grp) :: gs, ?_, ?_⟩
                · rw [← h.1, hflat]
                  simp
                · refine List.Forall₂.cons ?_ hgs
                  simp only [List.map_cons, List.sum_cons] at hg ⊢
                  show bits - b + (grp.map (fun x => x.len)).sum = f.len
                  rw [hg]
                  show bits - b + (f.len - (bits - b)) = f.len
                  ring
          · rw [if_neg hbig] at h
            cases hrec : processAux bits fuel
                (⟨f.text, f.len - (bits - b), some false⟩ :: rest) 0 with
            | none => rw [hrec] at h; simp at h
            | some out =>
              obtain ⟨nf', fin'⟩ := out
              rw [hrec] at h
              simp only [Option.some.injEq, Prod.mk.injEq] at h
              obtain ⟨gss', hflat, hfa⟩ := ih _ _ nf' fin' hrec
              cases hfa with
              | cons hg hgs =>
                rename_i grp gs
                refine ⟨(⟨"", bits - b, some true⟩ :: grp) :: gs, ?_, ?_⟩
                · rw [← h.1, hflat]
                  simp
                · refine List.Forall₂.cons ?_ hgs
                  simp only [List.map_cons, List.sum_cons] at hg ⊢
                  show bits - b + (grp.map (fun x => x.len)).sum = f.len
                  rw [hg]
                  show bits - b + (f.len - (bits - b)) = f.len
                  ring

/-- The final state of the field list after _process_field_list,
entry by entry, stays within mutBound of the parsed list. -/
theorem processAux_final_list (bits : Int) :
    ∀ (fuel : Nat) (fl : List ProtoField) (b : Int) (nf fin : List ProtoField),
    1 ≤ bits → b < bits →
    processAux bits fuel fl b = some (nf, fin) →
    List.Forall₂ mutBound fl fin := by
  intro fuel
  induction fuel with
  | zero =>
    intro fl b nf fin _ _ h
    cases fl with
    | nil =>
      simp only [processAux, Option.some.injEq, Prod.mk.injEq] at h
      rw [← h.2]
      exact List.Forall₂.nil
    | cons f rest => simp [processAux] at h
  | succ fuel ih =>
    intro fl b nf fin hb hblt h
    cases fl with
    | nil =>
      simp only [processAux, Option.some.injEq, Prod.mk.injEq] at h
      rw [← h.2]
      exact List.Forall₂.nil
    | cons f rest =>
      simp only [processAux] at h
      by_cases hfit : bits - b ≥ f.len
      · rw [if_pos hfit] at h
        cases hrec : processAux bits fuel rest
            (if b + f.len = bits then 0 else b + f.len) with
        | none => rw [hrec] at h; simp at h
        | some out =>
          obtain ⟨nf', fin'⟩ := out
          rw [hrec] at h
          simp only [Option.some.injEq, Prod.mk.injEq] at h
          rw [← h.2]
          refine List.Forall₂.cons ⟨rfl, le_refl _, Or.inl rfl⟩ ?_
          by_cases hfull : b + f.len = bits
          · rw [if_pos hfull] at hrec
            exact ih rest 0 nf' fin' hb (by omega) hrec
          · rw [if_neg hfull] at hrec
            exact ih rest (b + f.len) nf' fin' hb (by omega) hrec
      · rw [if_neg hfit] at h
        by_cases hc1 : b = 0 ∧ f.len % bits = 0
        · rw [if_pos hc1] at h
          cases hrec : processAux bits fuel rest 0 with
          | none => rw [hrec] at h; simp at h
          | some out =>
            obtain ⟨nf', fin'⟩ := out
            rw [hrec] at h
            simp only [Option.some.injEq, Prod.mk.injEq] at h
            rw [← h.2]
            exact List.Forall₂.cons ⟨rfl, le_refl _, Or.inl rfl⟩
              (ih rest 0 nf' fin' hb (by omega) hrec)
        · rw [if_neg hc1] at h
          by_cases hbig : bits - b ≥ f.len - (bits - b)
          · rw [if_pos hbig] at h
            cases hrec : processAux bits fuel
                (⟨"", f.len - (bits - b), some false⟩ :: rest) 0 with
            | none => rw [hrec] at h; simp at h
            | some out =>
              obtain ⟨nf', fin'⟩ := out
              rw [hrec] at h
              simp only [Option.some.injEq, Prod.mk.injEq] at h
              rw [← h.2]
              have hrecfa := ih _ 0 nf' fin' hb (by omega) hrec
              cases hrecfa with
              | cons hg hgs =>
                rename_i g gs
                refine List.Forall₂.cons ?_ hgs
                obtain ⟨hmf, hle, htx⟩ := hg
                refine ⟨hmf, ?_, ?_⟩
                · refine le_trans hle ?_
                  show f.len - (bits - b) ≤ f.len
                  omega
                · rcases htx with h1 | h1
                  · right; rw [h1]
                  · right; exact h1
          · rw [if_neg hbig] at h
            cases hrec : processAux bits fuel
                (⟨f.text, f.len - (bits - b), some false⟩ :: rest) 0 with
            | none => rw [hrec] at h; simp at h
            | some out =>
              obtain ⟨nf', fin'⟩ := out
              rw [hrec] at h
              simp only [Option.some.injEq, Prod.mk.injEq] at h
              rw [← h.2]
              have hrecfa := ih _ 0 nf' fin' hb (by omega) hrec
              cases hrecfa with
              | cons hg hgs =>
                rename_i g gs
                refine List.Forall₂.cons ?_ hgs
                obtain ⟨hmf, hle, htx⟩ := hg
                refine ⟨hmf, ?_, ?_⟩
                · refine le_trans hle ?_
                  show f.len - (bits - b) ≤ f.len
                  omega
                · rcases htx with h1 | h1
                  · left; exact h1
                  · right; exact h1

/-- _process_field_list reads only the text and len values of its
input entries (MF is overwritten before use), so lists that agree on
those values are processed identically. -/
theorem processAux_congr (bits : Int) :
    ∀ (fuel : Nat) (fl1 fl2 : List ProtoField) (b : Int),
    fl1.map projTL = fl2.map projTL →
    processAux bits fuel fl1 b = processAux bits fuel fl2 b := by
  intro fuel
  induction fuel with
  | zero =>
    intro fl1 fl2 b hproj
    cases fl1 with
    | nil =>
      have h2 : fl2 = [] := by
        simpa using hproj.symm
      rw [h2]
    | cons f r1 =>
      cases fl2 with
      | nil => simp [projTL] at hproj
      | cons g r2 => rfl
  | succ fuel ih =>
    intro fl1 fl2 b hproj
    cases fl1 with
    | nil =>
      have h2 : fl2 = [] := by
        simpa using hproj.symm
      rw [h2]
    | cons f r1 =>
      cases fl2 with
      | nil => simp [projTL] at hproj
      | cons g r2 =>
        simp only [List.map_cons, List.cons.injEq] at hproj
        obtain ⟨hfg, hmr⟩ := hproj
        have htext : f.text = g.text := by
          have := congrArg Prod.fst hfg
          simpa [projTL] using this
        have hlen : f.len = g.len := by
          have := congrArg Prod.snd hfg
          simpa [projTL] using this
        simp only [processAux]
        rw [htext, hlen]
        by_cases hfit : bits - b ≥ g.len
        · simp only [if_pos hfit]
          rw [ih r1 r2 _ hmr]
        · simp only [if_neg hfit]
          by_cases hc1 : b = 0 ∧ g.len % bits = 0
          · simp only [if_pos hc1]
            rw [ih r1 r2 _ hmr]
          · simp only [if_neg hc1]
            by_cases hbig : bits - b ≥ g.len - (bits - b)
            · simp only [if_pos hbig]
              rw [ih (⟨"", g.len - (bits - b), some false⟩ :: r1)
                (⟨"", g.len - (bits - b), some false⟩ :: r2) 0
                (by simp [projTL, hmr])]
            · simp only [if_neg hbig]
              rw [ih (⟨g.text, g.len - (bits - b), some false⟩ :: r1)
                (⟨g.text, g.len - (bits - b), some false⟩ :: r2) 0
                (by simp [projTL, hmr])]

/-- The fuel bound depends only on the len values, so lists agreeing
on text and len get the same fuel. -/
theorem measureFuel_congr (fl1 fl2 : List ProtoField)
    (h : fl1.map projTL = fl2.map projTL) : measureFuel fl1 = measureFuel fl2 := by
  induction fl1 generalizing fl2 with
  | nil =>
    have h2 : fl2 = [] := by simpa using h.symm
    rw [h2]
  | cons f r1 ih =>
    cases fl2 with
    | nil => simp [projTL] at h
    | cons g r2 =>
      simp only [List.map_cons, List.cons.injEq] at h
      obtain ⟨hfg, hmr⟩ := h
      have hlen : f.len = g.len := by
        have := congrArg Prod.snd hfg
        simpa [projTL] using this
      rw [measureFuel_cons, measureFuel_cons, hlen, ih r2 hmr]

/-- A successfully parsed field item has a positive bit length and no
MF key. -/
theorem parseFieldItem_valid (it : String) (f : ProtoField)
    (h : parseFieldItem it = .ok f) : 1 ≤ f.len ∧ f.MF = none := by
  unfold parseFieldItem at h
  split at h
  · rename_i text bits heq
    cases hv : pyInt bits with
    | none => rw [hv] at h; simp at h
    | some b =>
      rw [hv] at h
      dsimp only at h
      by_cases h2 : b ≤ 0
      · rw [if_pos h2] at h; simp at h
      · rw [if_neg h2] at h
        injection h with h'
        rw [← h']
        exact ⟨by show 1 ≤ b; omega, rfl⟩
  · exact absurd h (by simp)

/-- Every field produced by the field-parsing loop has a positive bit
length and no MF key. -/
theorem parseFieldList_valid : ∀ (items : List String) (fl : List ProtoField),
    parseFieldList items = .ok fl → ∀ f ∈ fl, 1 ≤ f.len ∧ f.MF = none := by
  intro items
  induction items with
  | nil =>
    intro fl h f hf
    simp only [parseFieldList] at h
    injection h with h'
    rw [← h'] at hf
    simp at hf
  | cons it rest ih =>
    intro fl h f hf
    simp only [parseFieldList] at h
    cases hit : parseFieldItem it with
    | error e => rw [hit] at h; simp at h
    | ok g =>
      rw [hit] at h
      cases hrest : parseFieldList rest with
      | error e => rw [hrest] at h; simp at h
      | ok gs =>
        rw [hrest] at h
        injection h with h'
        rw [← h'] at hf
        rcases List.mem_cons.mp hf with h1 | h2
        · rw [h1]; exact parseFieldItem_valid it g hit
        · exact ih gs hrest f h2

/-- One option token keeps bits_per_line positive and leaves the field
list, the placeholder factor and the print direction unchanged. -/
theorem applyOption_preserves (p p' : Protocol) (o : String)
    (h : applyOption p o = .ok p') :
    (1 ≤ p.bits_per_line → 1 ≤ p'.bits_per_line) ∧
    p'.field_list = p.field_list := by
  unfold applyOption at h
  split at h
  · rename_i var value heq
    by_cases h1 : pyLower var = "bits"
    · rw [if_pos h1] at h
      cases hv : pyInt value with
      | none => rw [hv] at h; simp at h
      | some v =>
        rw [hv] at h
        dsimp only at h
        by_cases h2 : v ≤ 0
        · rw [if_pos h2] at h; simp at h
        · rw [if_neg h2] at h
          injection h with h'
          rw [← h']
          exact ⟨fun _ => by show 1 ≤ v; omega, rfl⟩
    · rw [if_neg h1] at h
      by_cases h3 : pyLower var = "numbers"
      · rw [if_pos h3] at h
        by_cases h4 : pyLower value ∈ ["0", "n", "no", "none", "false"]
        · rw [if_pos h4] at h
          injection h with h'
          rw [← h']
          exact ⟨fun hb => hb, rfl⟩
        · rw [if_neg h4] at h
          by_cases h5 : pyLower value ∈ ["1", "y", "yes", "none", "true"]
          · rw [if_pos h5] at h
            injection h with h'
            rw [← h']
            exact ⟨fun hb => hb, rfl⟩
          · rw [if_neg h5] at h
            simp at h
      · rw [if_neg h3] at h
        by_cases h6 : pyLower var ∈ ["oddchar", "evenchar", "startchar", "endchar", "sepchar"]
        · rw [if_pos h6] at h
          by_cases h7 : (value.length : Int) > 1 ∨ (value.length : Int) ≤ 0
          · rw [if_pos h7] at h
            simp at h
          · rw [if_neg h7] at h
            by_cases h8 : pyLower var = "oddchar"
            · rw [if_pos h8] at h
              injection h with h'
              rw [← h']
              exact ⟨fun hb => hb, rfl⟩
            · rw [if_neg h8] at h
              by_cases h9 : pyLower var = "evenchar"
              · rw [if_pos h9] at h
                injection h with h'
                rw [← h']
                exact ⟨fun hb => hb, rfl⟩
              · rw [if_neg h9] at h
                by_cases h10 : pyLower var = "startchar"
                · rw [if_pos h10] at h
                  injection h with h'
                  rw [← h']
                  exact ⟨fun hb => hb, rfl⟩
                · rw [if_neg h10] at h
                  by_cases h11 : pyLower var = "endchar"
                  · rw [if_pos h11] at h
                    injection h with h'
                    rw [← h']
                    exact ⟨fun hb => hb, rfl⟩
                  · rw [if_neg h11] at h
                    injection h with h'
                    rw [← h']
                    exact ⟨fun hb => hb, rfl⟩
        · rw [if_neg h6] at h
          injection h with h'
          rw [← h']
          exact ⟨fun hb => hb, rfl⟩
  · exact absurd h (by simp)

/-- The option loop keeps bits_per_line positive and the field list
unchanged. -/
theorem applyOptions_preserves : ∀ (opts : List String) (p p' : Protocol),
    applyOptions p opts = .ok p' →
    (1 ≤ p.bits_per_line → 1 ≤ p'.bits_per_line) ∧
    p'.field_list = p.field_list := by
  intro opts
  induction opts with
  | nil =>
    intro p p' h
    simp only [applyOptions] at h
    injection h with h'
    rw [← h']
    exact ⟨fun hb => hb, rfl⟩
  | cons o rest ih =>
    intro p p' h
    simp only [applyOptions] at h
    cases ho : applyOption p o with
    | error e => rw [ho] at h; simp at h
    | ok q =>
      rw [ho] at h
      obtain ⟨hb1, hfl1⟩ := applyOption_preserves p q o ho
      obtain ⟨hb2, hfl2⟩ := ih q p' h
      exact ⟨fun hb => hb2 (hb1 hb), hfl2.trans hfl1⟩

/-- A successfully parsed Protocol has a positive line width and only
positive field lengths. -/
theorem parse_spec_valid (spec : String) (p : Protocol)
    (h : parse_spec spec = .ok p) :
    1 ≤ p.bits_per_line ∧ ∀ f ∈ p.field_list, 1 ≤ f.len := by
  simp only [parse_spec] at h
  by_cases hq : '?' ∈ spec.toList
  · rw [if_pos hq] at h
    split at h
    · rename_i fields opts tl heq
      by_cases hc : spec.toList.count '?' > 1
      · rw [if_pos hc] at h; simp at h
      · rw [if_neg hc] at h
        cases hfl : parseFieldList (pySplit fields ',') with
        | error e => rw [hfl] at h; simp at h
        | ok fl =>
          rw [hfl] at h
          obtain ⟨hb, hfleq⟩ := applyOptions_preserves _ _ _ h
          constructor
          · exact hb (by norm_num [defaultProtocol])
          · intro f hf
            rw [hfleq] at hf
            exact (parseFieldList_valid _ fl hfl f hf).1
    · simp at h
  · rw [if_neg hq] at h
    cases hfl : parseFieldList (pySplit spec ',') with
    | error e => rw [hfl] at h; simp at h
    | ok fl =>
      rw [hfl] at h
      injection h with h'
      rw [← h']
      constructor
      · norm_num [defaultProtocol]
      · intro f hf
        exact (parseFieldList_valid _ fl hfl f hf).1

/-- Replaying a Safe fragment stream through the str loop never
reaches an error: neither the assert False branch nor the
out-of-range successor lookup. -/
theorem strLoop_ok (bits ph : Int) (cS cE cO cEv cSep : String) (ltr : Bool)
    (total : Nat) :
    ∀ (frags : List ProtoField) (b : Int) (done : Nat) (cur : String)
      (lines : List String), Safe bits frags b →
    ∃ out, strLoop bits ph cS cE cO cEv cSep ltr total frags b done cur lines
      = .ok out := by
  intro frags
  induction frags with
  | nil =>
    intro b done cur lines _
    exact ⟨lines, rfl⟩
  | cons f rest ih =>
    intro b done cur lines hsafe
    rcases hsafe with ⟨hfit, hmf, hnext⟩ | ⟨hb0, hbig, hmod, ⟨L, hL⟩, hnext⟩
    · simp only [strLoop]
      rw [if_pos (show bits - b ≥ f.len from by omega)]
      by_cases hfull : b + f.len = bits
      · rw [if_pos hfull]
        rw [if_pos hfull] at hnext
        by_cases hismf : f.MF = some true
        · rw [if_pos hismf]
          obtain ⟨_, hne⟩ := hmf hismf
          cases hr : rest.head? with
          | none => exact absurd (List.head?_eq_none_iff.mp hr) hne
          | some nxt => exact ih 0 (done + 1) "" _ hnext
        · rw [if_neg hismf]
          exact ih 0 (done + 1) "" _ hnext
      · rw [if_neg hfull]
        rw [if_neg hfull] at hnext
        by_cases hdone : done + 1 = total
        · rw [if_pos hdone]
          exact ih (b + f.len) (done + 1) _ _ hnext
        · rw [if_neg hdone]
          exact ih (b + f.len) (done + 1) _ _ hnext
    · subst hb0
      simp only [strLoop]
      rw [if_neg (show ¬(bits - 0 ≥ f.len) from by omega)]
      rw [if_pos hmod]
      simp only [if_true]
      rw [hL]
      dsimp only
      by_cases hltp : (1 : Int) ≤ L
      · rw [if_pos hltp, if_pos hltp]
        exact ih 0 (done + 1) cur _ hnext
      · rw [if_neg hltp, if_neg hltp]
        exact ih 0 done cur _ hnext

/-- On a parse-valid attribute set, rendering reaches no error. -/
theorem renderCore_ok (bits ph : Int) (cS cE cO cEv cSep : String)
    (tens units ltr : Bool) (fl : List ProtoField)
    (hb : 1 ≤ bits) (hlen : ∀ f ∈ fl, 1 ≤ f.len)
    (hsmall : ∀ f ∈ fl, f.len < 2 ^ 53) :
    ∃ out, renderCore bits ph cS cE cO cEv cSep tens units ltr fl = .ok out := by
  obtain ⟨⟨nf, fin⟩, hpa⟩ := processAux_total bits (measureFuel fl) fl 0 hb
    (by omega) (by omega) hlen (le_refl _)
  have hsafe := processAux_safe bits (measureFuel fl) fl 0 nf fin hb
    (by omega) (by omega) hlen hsmall hpa
  obtain ⟨ls, hls⟩ := strLoop_ok bits ph cS cE cO cEv cSep ltr nf.length nf 0 0 ""
    ((match getTopNumbers bits ph tens units ltr with
      | some n => [n]
      | none => []) ++ [get_horizontal bits ph cS cE cO cEv ltr bits]) hsafe
  refine ⟨(pyJoin "\n" ls, fin), ?_⟩
  unfold renderCore
  rw [hpa]
  dsimp only
  rw [hls]

/-- Rendering depends on the field list only through the text and len
values of its entries. -/
theorem renderCore_congr (bits ph : Int) (cS cE cO cEv cSep : String)
    (tens units ltr : Bool) (fl1 fl2 : List ProtoField)
    (h : fl1.map projTL = fl2.map projTL) :
    renderCore bits ph cS cE cO cEv cSep tens units ltr fl1 =
    renderCore bits ph cS cE cO cEv cSep tens units ltr fl2 := by
  unfold renderCore
  rw [measureFuel_congr fl1 fl2 h, processAux_congr bits (measureFuel fl2) fl1 fl2 0 h]

/-! ## Claim C1 -/

/-- C1 is false as stated: rendering the parsed model of A:40 twice
yields two different texts, because _process_field_list overwrites the
split field in self.field_list with its remainder, so the second
render sees a different field list. -/
theorem render_twice_differs_on_split_field :
    parse_spec "A:40" = .ok pA40 ∧
    (renderTwice pA40).map (fun q => q.1 == q.2) = some false :=
  ⟨by decide, by decide⟩

/-- C1 (amended): for a successfully parsed model, a second call to
the render operation returns exactly the same string as the first
call, provided the first call left the field list unchanged up to
text and len (as happens whenever no field is split); when a split
occurs the texts can differ, as the counterexample shows. -/
theorem render_twice_yields_same_text_when_fields_unchanged (spec : String)
    (p p1 : Protocol) (s1 : String)
    (hp : parse_spec spec = .ok p)
    (hr : render p = .ok (s1, p1))
    (hfix : p1.field_list.map projTL = p.field_list.map projTL) :
    ∃ p2, render p1 = .ok (s1, p2) := by
  unfold render at hr
  cases hrc : renderCore p.bits_per_line p.ph_num_per_bit p.hdr_char_start
      p.hdr_char_end p.hdr_char_fill_odd p.hdr_char_fill_even p.hdr_char_sep
      p.do_print_top_tens p.do_print_top_units p.do_left_to_right_print
      p.field_list with
  | error e => rw [hrc] at hr; simp at hr
  | ok out =>
    obtain ⟨s, fin⟩ := out
    rw [hrc] at hr
    dsimp only at hr
    simp only [Except.ok.injEq, Prod.mk.injEq] at hr
    obtain ⟨hs, hp1⟩ := hr
    subst hs
    subst hp1
    dsimp only at hfix
    refine ⟨{ p with field_list := fin }, ?_⟩
    unfold render
    dsimp only
    rw [renderCore_congr p.bits_per_line p.ph_num_per_bit p.hdr_char_start
      p.hdr_char_end p.hdr_char_fill_odd p.hdr_char_fill_even p.hdr_char_sep
      p.do_print_top_tens p.do_print_top_units p.do_left_to_right_print
      fin p.field_list hfix, hrc]

/-- Witness for the amended C1 at the parsed model of A:4,B:4?bits=8,
where rendering performs no split. -/
theorem render_twice_yields_same_text_when_fields_unchanged_witness :
    parse_spec "A:4,B:4?bits=8" = .ok pC1w ∧
    render pC1w = .ok
      (" 0              \n 0 1 2 3 4 5 6 7\n+-+-+-+-+-+-+-+-+\n|   A   |   B   |\n+-+-+-+-+-+-+-+-+",
        pC1w1) ∧
    pC1w1.field_list.map projTL = pC1w.field_list.map projTL ∧
    ∃ p2, render pC1w1 = .ok
      (" 0              \n 0 1 2 3 4 5 6 7\n+-+-+-+-+-+-+-+-+\n|   A   |   B   |\n+-+-+-+-+-+-+-+-+",
        p2) :=
  ⟨by decide, by decide, by decide,
    render_twice_yields_same_text_when_fields_unchanged "A:4,B:4?bits=8"
      pC1w pC1w1 _ (by decide) (by decide) (by decide)⟩

/-! ## Claim C2 -/

/-- C2 is false as stated: on the parsed field list of A:64?bits=32
the line-allocation pass emits a fragment of width 64, which exceeds
bitsPerLine = 32 (the full-width multi-line case keeps the field
whole). -/
theorem fragment_wider_than_bits_per_line :
    parse_spec "A:64?bits=32" = .ok pA64 ∧
    processFieldList pA64 =
      some ([⟨"A", 64, some false⟩], [⟨"A", 64, some false⟩]) ∧
    ¬((64 : Int) ≤ 32) :=
  ⟨by decide, by decide, by decide⟩

/-- C2 (amended): for every field list with nonnegative lengths and
every positive bitsPerLine, every fragment emitted by
_process_field_list has width at most bitsPerLine, except a
full-width multi-line fragment, whose width exceeds bitsPerLine and is
an exact multiple of it. -/
theorem fragment_width_at_most_line_or_multiple (bits : Int) (fuel : Nat)
    (fl : List ProtoField) (b : Int) (nf fin : List ProtoField)
    (hb : 1 ≤ bits) (hb0 : 0 ≤ b) (hblt : b < bits)
    (hlen : ∀ f ∈ fl, 0 ≤ f.len)
    (h : processAux bits fuel fl b = some (nf, fin)) :
    ∀ f ∈ nf, f.len ≤ bits ∨ (bits < f.len ∧ f.len % bits = 0) :=
  processAux_widths bits fuel fl b nf fin hb hb0 hblt hlen h

/-- Witness for the amended C2 on the parsed field list of
AB:12?bits=8. -/
theorem fragment_width_at_most_line_or_multiple_witness :
    processAux 8 (measureFuel pAB12.field_list) pAB12.field_list 0 =
      some ([⟨"AB", 8, some true⟩, ⟨"", 4, some false⟩],
        [⟨"", 4, some false⟩]) ∧
    ∀ f ∈ [(⟨"AB", 8, some true⟩ : ProtoField), ⟨"", 4, some false⟩],
      f.len ≤ 8 ∨ (8 < f.len ∧ f.len % 8 = 0) :=
  ⟨by decide,
    fragment_width_at_most_line_or_multiple 8 (measureFuel pAB12.field_list)
      pAB12.field_list 0 [⟨"AB", 8, some true⟩, ⟨"", 4, some false⟩]
      [⟨"", 4, some false⟩] (by decide) (by decide) (by decide)
      (by decide) (by decide)⟩

/-! ## Claim C3 -/

/-- C3 is false as stated: _process_field_list mutates the entries of
the parsed field list.  On the parsed model of A:40 the single
original entry (text A, len 40, no MF key) ends as the remainder
(text empty, len 8, MF False). -/
theorem process_field_list_mutates_parsed_fields :
    parse_spec "A:40" = .ok pA40 ∧
    processFieldList pA40 =
      some ([⟨"A", 32, some true⟩, ⟨"", 8, some false⟩],
        [⟨"", 8, some false⟩]) ∧
    [(⟨"", 8, some false⟩ : ProtoField)] ≠ pA40.field_list :=
  ⟨by decide, by decide, by decide⟩

/-- C3 (amended): _process_field_list does mutate the field list, but
boundedly: afterwards every entry has MF set to False, a bit length
no larger than its original, and either its original text or the
empty text (a split field is overwritten by its remainder; an unsplit
field keeps text and len). -/
theorem process_field_list_mutation_bounded (bits : Int) (fuel : Nat)
    (fl : List ProtoField) (b : Int) (nf fin : List ProtoField)
    (hb : 1 ≤ bits) (hblt : b < bits)
    (h : processAux bits fuel fl b = some (nf, fin)) :
    List.Forall₂ mutBound fl fin :=
  processAux_final_list bits fuel fl b nf fin hb hblt h

/-- Witness for the amended C3 on the parsed field list of A:40. -/
theorem process_field_list_mutation_bounded_witness :
    processAux 32 (measureFuel pA40.field_list) pA40.field_list 0 =
      some ([⟨"A", 32, some true⟩, ⟨"", 8, some false⟩],
        [⟨"", 8, some false⟩]) ∧
    List.Forall₂ mutBound pA40.field_list [⟨"", 8, some false⟩] :=
  ⟨by decide,
    process_field_list_mutation_bounded 32 (measureFuel pA40.field_list)
      pA40.field_list 0 [⟨"A", 32, some true⟩, ⟨"", 8, some false⟩]
      [⟨"", 8, some false⟩] (by decide) (by decide) (by decide)⟩

/-! ## Claim C4 -/

/-- C4: for every successfully parsed spec the line-allocation pass
terminates, the widths of the emitted fragments sum to the total bit
length of the parsed fields, and the fragments appear in input order:
they factor into one consecutive group per input field, each group
summing to the bit length of that field. -/
theorem fragments_partition_parsed_fields (spec : String) (p : Protocol)
    (h : parse_spec spec = .ok p) :
    ∃ nf fin, processFieldList p = some (nf, fin) ∧
      (nf.map (fun f => f.len)).sum = (p.field_list.map (fun f => f.len)).sum ∧
      ∃ gss : List (List ProtoField), nf = gss.flatten ∧
        List.Forall₂ (fun fld grp => (grp.map (fun x => x.len)).sum = fld.len)
          p.field_list gss := by
  obtain ⟨hb, hlen⟩ := parse_spec_valid spec p h
  obtain ⟨⟨nf, fin⟩, hpa⟩ := processAux_total p.bits_per_line
    (measureFuel p.field_list) p.field_list 0 hb (by omega) (by omega) hlen
    (le_refl _)
  exact ⟨nf, fin, hpa, processAux_sum _ _ _ _ _ _ hpa,
    processAux_groups _ _ _ _ _ _ hpa⟩

/-- Witness for C4 at the spec A:4,B:12?bits=8. -/
theorem fragments_partition_parsed_fields_witness :
    parse_spec "A:4,B:12?bits=8" = .ok pC4 ∧
    ∃ nf fin, processFieldList pC4 = some (nf, fin) ∧
      (nf.map (fun f => f.len)).sum = (pC4.field_list.map (fun f => f.len)).sum ∧
      ∃ gss : List (List ProtoField), nf = gss.flatten ∧
        List.Forall₂ (fun fld grp => (grp.map (fun x => x.len)).sum = fld.len)
          pC4.field_list gss :=
  ⟨by decide, fragments_partition_parsed_fields "A:4,B:12?bits=8" pC4 (by decide)⟩

/-! ## Claim C5 -/

/-- C5 is false as stated: the spec specHuge (one field of 2 to the
1100 bits) parses successfully, yet rendering it fails: the field is
kept whole by the line-allocation pass (its length is a multiple of
32), and the float true division of source line 434 overflows, so the
str conversion raises OverflowError on this successfully parsed
model. -/
theorem render_overflows_on_huge_parsed_field :
    parse_spec specHuge = .ok pHuge ∧
    render pHuge =
      .error "OverflowError: integer division result too large for a float" :=
  ⟨by decide, by decide⟩

/-- C5 (amended): for every spec string on which parse_spec succeeds
whose parsed fields are each shorter than 2 to the 53 bits, the
render operation never fails: the assert False branch and the
successor index access are unreachable, and the float row-count
conversion of the full-width multi-line case stays within float
range (these are the only error outcomes of the embedded renderer;
every other operation it performs is a total function), so a result
is always returned.  For longer fields rendering can raise
OverflowError, as the counterexample shows. -/
theorem parsed_spec_renders_without_failure (spec : String) (p : Protocol)
    (h : parse_spec spec = .ok p)
    (hsmall : ∀ f ∈ p.field_list, f.len < 2 ^ 53) :
    ∃ res, render p = .ok res := by
  obtain ⟨hb, hlen⟩ := parse_spec_valid spec p h
  obtain ⟨out, hout⟩ := renderCore_ok p.bits_per_line p.ph_num_per_bit
    p.hdr_char_start p.hdr_char_end p.hdr_char_fill_odd p.hdr_char_fill_even
    p.hdr_char_sep p.do_print_top_tens p.do_print_top_units
    p.do_left_to_right_print p.field_list hb hlen hsmall
  obtain ⟨s, fin⟩ := out
  refine ⟨(s, { p with field_list := fin }), ?_⟩
  unfold render
  rw [hout]

/-- Witness for the amended C5 at the spec AB:12?bits=8, whose field
is split across two lines. -/
theorem parsed_spec_renders_without_failure_witness :
    parse_spec "AB:12?bits=8" = .ok pAB12 ∧
    (∀ f ∈ pAB12.field_list, f.len < 2 ^ 53) ∧
    ∃ res, render pAB12 = .ok res :=
  ⟨by decide, by decide,
    parsed_spec_renders_without_failure "AB:12?bits=8" pAB12 (by decide)
      (by decide)⟩

/-! ## Claim C6 -/

/-- Bool-literal conditional reduction used to specialize the
direction flag. -/
theorem ite_true_bool {α : Sort u} (a b : α) :
    (if (true = true) then a else b) = a := rfl

/-- A border line is empty exactly for a non-positive width (its left
cap alone makes it nonempty otherwise). -/
theorem get_horizontal_length_eq_zero_iff (bits ph width : Int)
    (cS cE cO cEv : String) (hcs : 1 ≤ cS.length) :
    ((get_horizontal bits ph cS cE cO cEv true width).length = 0 ↔ width ≤ 0) := by
  unfold get_horizontal
  by_cases hw : width ≤ 0
  · rw [if_pos hw]
    simpa using hw
  · rw [if_neg hw]
    rw [ite_true_bool]
    constructor
    · intro hlen
      exfalso
      rw [String.length_append, String.length_append] at hlen
      omega
    · intro hcontra
      exact absurd hcontra hw

/-- C6: in left-to-right rendering, the bottom border emitted after a
continuing fragment completes a line (source lines 370-405, extracted
as mfBorder and invoked at exactly that point of the str loop) equals
the border described by the specification sentence, formalized as
specContinuationBorder. -/
theorem continuation_border_matches_spec (bits ph field_len next_len : Int)
    (cS cE cO cEv : String) (hcs : 1 ≤ cS.length)
    (hfl1 : 1 ≤ field_len) (hfl2 : field_len ≤ bits) :
    mfBorder bits ph cS cE cO cEv true field_len next_len =
    specContinuationBorder bits ph cS cE cO cEv field_len next_len := by
  unfold mfBorder specContinuationBorder
  by_cases hgt : next_len > bits - field_len
  · rw [if_pos hgt, if_neg (show ¬(next_len - (bits - field_len) ≤ 0) from by omega)]
    simp only [eq_self_iff_true, if_true]
    by_cases hz : bits - field_len = 0
    · simp only [if_pos ((get_horizontal_length_eq_zero_iff bits ph
        (bits - field_len) cS cE cO cEv hcs).mpr (by omega)), if_pos hz]
      by_cases hge : next_len ≥ bits
      · simp only [if_pos hge]
        rw [min_eq_right (show field_len ≤ next_len - (bits - field_len) from by omega)]
      · simp only [if_neg hge]
        rw [min_eq_left (show next_len - (bits - field_len) ≤ field_len from by omega)]
    · have hnz : ¬((get_horizontal bits ph cS cE cO cEv true (bits - field_len)).length = 0) := by
        intro hcontra
        exact hz (by
          have := (get_horizontal_length_eq_zero_iff bits ph
            (bits - field_len) cS cE cO cEv hcs).mp hcontra
          omega)
      simp only [if_neg hnz, if_neg hz]
      by_cases hge : next_len ≥ bits
      · simp only [if_pos hge]
        rw [min_eq_right (show field_len ≤ next_len - (bits - field_len) from by omega)]
      · simp only [if_neg hge]
        rw [min_eq_left (show next_len - (bits - field_len) ≤ field_len from by omega)]
  · rw [if_neg hgt, if_pos (show next_len - (bits - field_len) ≤ 0 from by omega)]

/-- Witness for C6 with the configuration of A:40 (32 bits per line,
default characters): the fragment of length 32 completing the first
line, followed by the remainder of length 8. -/
theorem continuation_border_matches_spec_witness :
    mfBorder 32 1 "+" "+" "+" "-" true 32 8 =
    specContinuationBorder 32 1 "+" "+" "+" "-" 32 8 :=
  continuation_border_matches_spec 32 1 32 8 "+" "+" "+" "-" (by decide)
    (by decide) (by decide)

/-! ## Lemmas on pySplit and pyInt -/

/-- str.split never returns an empty list. -/
theorem splitCharAux_length_pos (sep : Char) :
    ∀ (l acc : List Char), 1 ≤ (splitCharAux sep l acc).length := by
  intro l
  induction l with
  | nil => intro acc; simp [splitCharAux]
  | cons c cs ih =>
    intro acc
    simp only [splitCharAux]
    by_cases hc : c = sep
    · rw [if_pos hc]
      simp
    · rw [if_neg hc]
      exact ih (c :: acc)

/-- str.split on a string containing the separator returns at least
two pieces. -/
theorem splitCharAux_length_of_mem (sep : Char) :
    ∀ (l acc : List Char), sep ∈ l → 2 ≤ (splitCharAux sep l acc).length := by
  intro l
  induction l with
  | nil => intro acc h; simp at h
  | cons c cs ih =>
    intro acc hmem
    simp only [splitCharAux]
    by_cases hc : c = sep
    · rw [if_pos hc]
      have := splitCharAux_length_pos sep cs []
      simp only [List.length_cons]
      omega
    · rw [if_neg hc]
      rcases List.mem_cons.mp hmem with h1 | h2
      · exact absurd h1.symm hc
      · exact ih (c :: acc) h2

/-- str.split on a string not containing the separator returns the
one whole piece. -/
theorem splitCharAux_of_not_mem (sep : Char) :
    ∀ (l acc : List Char), sep ∉ l →
    splitCharAux sep l acc = [acc.reverse ++ l] := by
  intro l
  induction l with
  | nil => intro acc _; simp [splitCharAux]
  | cons c cs ih =>
    intro acc hmem
    have hc : c ≠ sep := fun h => hmem (by simp [h])
    simp only [splitCharAux, if_neg hc]
    rw [ih (c :: acc) (fun h => hmem (by simp [h]))]
    simp

/-! ## Claim C8 -/

/-- C8: a spec string in which the question mark occurs two or more
times is rejected with the dedicated separator error. -/
theorem more_than_one_question_mark_rejected (spec : String)
    (h : 2 ≤ spec.toList.count '?') :
    parse_spec spec =
      .error "FATAL: Character ? may only be used as an option separator." := by
  have hmem : '?' ∈ spec.toList := by
    by_contra hn
    rw [← List.count_eq_zero] at hn
    omega
  simp only [parse_spec]
  rw [if_pos hmem]
  obtain ⟨a, b, t, heq⟩ : ∃ a b t, pySplit spec '?' = a :: b :: t := by
    have hlen : 2 ≤ (pySplit spec '?').length := by
      unfold pySplit
      rw [List.length_map]
      exact splitCharAux_length_of_mem '?' spec.toList [] hmem
    cases hsp : pySplit spec '?' with
    | nil => rw [hsp] at hlen; simp at hlen
    | cons a rest =>
      cases rest with
      | nil => rw [hsp] at hlen; simp at hlen
      | cons b t => exact ⟨a, b, t, rfl⟩
  rw [heq]
  dsimp only
  rw [if_pos (show spec.toList.count '?' > 1 from by omega)]

/-- Witness for C8 at the spec of the error scenario. -/
theorem more_than_one_question_mark_rejected_witness :
    2 ≤ "A:4?bits=4?x=1".toList.count '?' ∧
    parse_spec "A:4?bits=4?x=1" =
      .error "FATAL: Character ? may only be used as an option separator." :=
  ⟨by decide, more_than_one_question_mark_rejected "A:4?bits=4?x=1" (by decide)⟩

/-! ## Claim C9 -/

/-- C9 is false as stated: the question-mark-free spec string A fails
to construct (its only field token has no colon), so construction
does not succeed for every spec string without options. -/
theorem no_option_spec_construction_fails :
    ('?' ∉ "A".toList) ∧
    parse_spec "A" = .error "FATAL: Invalid field_list specification" :=
  ⟨by decide, by decide⟩

/-- C9 (amended): for every spec string containing no question mark,
whenever construction succeeds it leaves every rendering option at
its default: 32 bits per line, both ruler rows on, start and end
characters plus, odd fill plus, even fill minus, separator bar, and
left-to-right rendering. -/
theorem defaults_when_no_options (spec : String) (p : Protocol)
    (hq : '?' ∉ spec.toList) (h : parse_spec spec = .ok p) :
    p.bits_per_line = 32 ∧ p.do_print_top_tens = true ∧
    p.do_print_top_units = true ∧ p.hdr_char_start = "+" ∧
    p.hdr_char_end = "+" ∧ p.hdr_char_fill_odd = "+" ∧
    p.hdr_char_fill_even = "-" ∧ p.hdr_char_sep = "|" ∧
    p.do_left_to_right_print = true := by
  simp only [parse_spec] at h
  rw [if_neg hq] at h
  cases hfl : parseFieldList (pySplit spec ',') with
  | error e => rw [hfl] at h; simp at h
  | ok fl =>
    rw [hfl] at h
    injection h with h'
    rw [← h']
    exact ⟨rfl, rfl, rfl, rfl, rfl, rfl, rfl, rfl, rfl⟩

/-- Witness for the amended C9 at the spec :8. -/
theorem defaults_when_no_options_witness :
    ('?' ∉ ":8".toList) ∧ parse_spec ":8" = .ok pColon8 ∧
    (pColon8.bits_per_line = 32 ∧ pColon8.do_print_top_tens = true ∧
    pColon8.do_print_top_units = true ∧ pColon8.hdr_char_start = "+" ∧
    pColon8.hdr_char_end = "+" ∧ pColon8.hdr_char_fill_odd = "+" ∧
    pColon8.hdr_char_fill_even = "-" ∧ pColon8.hdr_char_sep = "|" ∧
    pColon8.do_left_to_right_print = true) :=
  ⟨by decide, by decide, defaults_when_no_options ":8" pColon8 (by decide) (by decide)⟩

/-! ## Claim C7 -/

/-- Splitting the option token numbers=v at the equals sign, for a
value containing no equals sign, gives exactly the key and the
value. -/
theorem pySplit_numbers_token (v : String) (hv : '=' ∉ v.toList) :
    pySplit ("numbers=" ++ v) '=' = ["numbers", v] := by
  unfold pySplit
  have h1 : ("numbers=" ++ v).toList =
      'n' :: 'u' :: 'm' :: 'b' :: 'e' :: 'r' :: 's' :: '=' :: v.toList := rfl
  rw [h1]
  have h2 : splitCharAux '=' ('n' :: 'u' :: 'm' :: 'b' :: 'e' :: 'r' :: 's' ::
      '=' :: v.toList) [] = "numbers".toList :: splitCharAux '=' v.toList [] := rfl
  rw [h2, splitCharAux_of_not_mem '=' v.toList [] hv]
  rfl

/-- C7: the numbers option sets both ruler flags from the value,
case-insensitively: a value lowercasing into the falsy vocabulary
(including none, which the source tests against the falsy list first)
clears both showTens and showUnits, a value lowercasing into 1, y,
yes or true sets both, and any other value fails with the dedicated
error. -/
theorem numbers_option_semantics (p : Protocol) (v : String)
    (hv : '=' ∉ v.toList) :
    (pyLower v ∈ ["0", "n", "no", "none", "false"] →
      applyOption p ("numbers=" ++ v) =
        .ok { p with do_print_top_tens := false, do_print_top_units := false }) ∧
    (pyLower v ∈ ["1", "y", "yes", "true"] →
      applyOption p ("numbers=" ++ v) =
        .ok { p with do_print_top_tens := true, do_print_top_units := true }) ∧
    (pyLower v ∉ ["0", "n", "no", "none", "false"] →
      pyLower v ∉ ["1", "y", "yes", "true"] →
      applyOption p ("numbers=" ++ v) =
        .error "FATAL: Invalid value for numbers option") := by
  have hred : ∀ r : Except String Protocol,
      (applyOption p ("numbers=" ++ v) = r) =
      ((if pyLower v ∈ ["0", "n", "no", "none", "false"] then
          (.ok { p with do_print_top_tens := false, do_print_top_units := false } :
            Except String Protocol)
        else if pyLower v ∈ ["1", "y", "yes", "none", "true"] then
          .ok { p with do_print_top_tens := true, do_print_top_units := true }
        else .error "FATAL: Invalid value for numbers option") = r) := by
    intro r
    unfold applyOption
    rw [pySplit_numbers_token v hv]
    dsimp only
    rw [if_neg (show ¬(pyLower "numbers" = "bits") from by decide),
      if_pos (show pyLower "numbers" = "numbers" from by decide)]
  refine ⟨?_, ?_, ?_⟩
  · intro hmem
    rw [hred]
    rw [if_pos hmem]
  · intro hmem
    simp only [List.mem_cons, List.mem_singleton, List.not_mem_nil,
      or_false] at hmem
    have hnotf : pyLower v ∉ ["0", "n", "no", "none", "false"] := by
      rcases hmem with h | h | h | h
      all_goals rw [h]; decide
    have hmem5 : pyLower v ∈ ["1", "y", "yes", "none", "true"] := by
      rcases hmem with h | h | h | h
      all_goals rw [h]; decide
    rw [hred, if_neg hnotf, if_pos hmem5]
  · intro hnotf hnott
    have hnott4 : ∀ w, pyLower v = w →
        w ∈ (["1", "y", "yes", "true"] : List String) → False := by
      intro w hw hmemw
      exact hnott (hw ▸ hmemw)
    have hnott5 : pyLower v ∉ ["1", "y", "yes", "none", "true"] := by
      intro hmem
      simp only [List.mem_cons, List.mem_singleton, List.not_mem_nil,
        or_false] at hmem
      rcases hmem with h | h | h | h | h
      · exact hnott4 _ h (by decide)
      · exact hnott4 _ h (by decide)
      · exact hnott4 _ h (by decide)
      · exact hnotf (by rw [h]; decide)
      · exact hnott4 _ h (by decide)
    rw [hred, if_neg hnotf, if_neg hnott5]

/-- Witness for C7 at the value none: numbers=none resolves to falsy,
clearing both ruler flags. -/
theorem numbers_option_semantics_witness :
    applyOption defaultProtocol "numbers=none" =
      .ok { defaultProtocol with
        do_print_top_tens := false, do_print_top_units := false } :=
  (numbers_option_semantics defaultProtocol "none" (by decide)).1 (by decide)

/-! ## Claim C10 -/

/-- A decimal digit is not one of the special characters of the spec
grammar, a sign, an underscore, or whitespace. -/
theorem pyDigit_ne_special (c : Char) (hc : pyDigit c = true) :
    c ≠ '?' ∧ c ≠ ',' ∧ c ≠ ':' ∧ c ≠ '_' ∧ c ≠ '+' ∧ c ≠ '-' ∧
    pyWhitespace c = false := by
  refine ⟨fun h => absurd (h ▸ hc) (by decide),
    fun h => absurd (h ▸ hc) (by decide),
    fun h => absurd (h ▸ hc) (by decide),
    fun h => absurd (h ▸ hc) (by decide),
    fun h => absurd (h ▸ hc) (by decide),
    fun h => absurd (h ▸ hc) (by decide), ?_⟩
  unfold pyWhitespace
  refine decide_eq_false ?_
  rintro (h | h | h | h | h | h)
  all_goals exact absurd (h ▸ hc) (by decide)

/-- dropWhile is the identity when the predicate fails on every
element. -/
theorem dropWhile_eq_self_of_all_false (p : Char → Bool) :
    ∀ l : List Char, (∀ c ∈ l, p c = false) → l.dropWhile p = l := by
  intro l
  induction l with
  | nil => intro _; rfl
  | cons c cs _ =>
    intro h
    have hc : p c = false := h c (by simp)
    simp [List.dropWhile, hc]

/-- Stripping whitespace from an all-digit string leaves it
unchanged. -/
theorem stripList_of_digits (ds : List Char)
    (hdig : ∀ c ∈ ds, pyDigit c = true) : stripList ds = ds := by
  unfold stripList
  have hws : ∀ c ∈ ds, pyWhitespace c = false :=
    fun c hc => (pyDigit_ne_special c (hdig c hc)).2.2.2.2.2.2
  rw [dropWhile_eq_self_of_all_false pyWhitespace ds hws,
    dropWhile_eq_self_of_all_false pyWhitespace ds.reverse
      (fun c hc => hws c (List.mem_reverse.mp hc)),
    List.reverse_reverse]

/-- The digit-with-underscores scanner accepts any all-digit tail. -/
theorem udAux_of_digits : ∀ l : List Char,
    (∀ c ∈ l, pyDigit c = true) → udAux l = true := by
  intro l
  induction l with
  | nil => intro _; rfl
  | cons c cs ih =>
    intro h
    have hc : pyDigit c = true := h c (by simp)
    have hne : c ≠ '_' := (pyDigit_ne_special c hc).2.2.2.1
    unfold udAux
    rw [if_neg hne, Bool.and_eq_true]
    exact ⟨hc, ih (fun d hd => h d (by simp [hd]))⟩

/-- Filtering out underscores from an all-digit string leaves it
unchanged. -/
theorem filter_underscore_of_digits : ∀ ds : List Char,
    (∀ c ∈ ds, pyDigit c = true) →
    ds.filter (fun c => c ≠ '_') = ds := by
  intro ds
  induction ds with
  | nil => intro _; rfl
  | cons c cs ih =>
    intro h
    have hne : c ≠ '_' := (pyDigit_ne_special c (h c (by simp))).2.2.2.1
    simp only [List.filter_cons, decide_eq_true (show c ≠ '_' from hne), if_true]
    rw [ih (fun d hd => h d (by simp [hd]))]

/-- int() on a nonempty all-digit string returns its decimal value. -/
theorem pyInt_digits (ds : List Char) (hne : ds ≠ [])
    (hdig : ∀ c ∈ ds, pyDigit c = true) :
    pyInt ⟨ds⟩ = some (digitsVal ds) := by
  unfold pyInt
  have hstrip : stripList (String.toList ⟨ds⟩) = ds := stripList_of_digits ds hdig
  rw [hstrip]
  cases ds with
  | nil => exact absurd rfl hne
  | cons c cs =>
    have hc : pyDigit c = true := hdig c (by simp)
    split
    · rename_i rest heq
      injection heq with h1 _
      exact absurd h1 (pyDigit_ne_special c hc).2.2.2.2.1
    · rename_i rest heq
      injection heq with h1 _
      exact absurd h1 (pyDigit_ne_special c hc).2.2.2.2.2.1
    · unfold pyIntCore
      rw [if_pos (show underscoreDigitsOk (c :: cs) = true from by
        simp only [underscoreDigitsOk, Bool.and_eq_true]
        exact ⟨hc, udAux_of_digits cs (fun d hd => hdig d (by simp [hd]))⟩)]
      rw [filter_underscore_of_digits (c :: cs) hdig]

/-- C10: a field token with an empty name is accepted: for every
nonempty string of decimal digits with positive value (the textual
form of a positive integer n), parsing the spec made of a colon
followed by those digits succeeds, producing a single field whose
display text is the empty string and whose bit length is n, with the
default options. -/
theorem empty_name_field_accepted (ds : List Char) (hne : ds ≠ [])
    (hdig : ∀ c ∈ ds, pyDigit c = true) (hpos : 1 ≤ digitsVal ds) :
    parse_spec ⟨':' :: ds⟩ =
      .ok { defaultProtocol with field_list := [⟨"", digitsVal ds, none⟩] } := by
  have hq : ¬('?' ∈ (⟨':' :: ds⟩ : String).toList) := by
    intro hmem
    rcases List.mem_cons.mp hmem with h1 | h2
    · exact absurd h1.symm (by decide)
    · exact absurd rfl ((pyDigit_ne_special '?' (hdig '?' h2)).1)
  have hnocomma : ',' ∉ (':' :: ds) := by
    intro hmem
    rcases List.mem_cons.mp hmem with h1 | h2
    · exact absurd h1.symm (by decide)
    · exact absurd rfl ((pyDigit_ne_special ',' (hdig ',' h2)).2.1)
  have hnocolon : ':' ∉ ds := by
    intro hmem
    exact absurd rfl ((pyDigit_ne_special ':' (hdig ':' hmem)).2.2.1)
  simp only [parse_spec]
  rw [if_neg hq]
  have hsplit1 : pySplit ⟨':' :: ds⟩ ',' = [⟨':' :: ds⟩] := by
    unfold pySplit
    rw [show String.toList ⟨':' :: ds⟩ = ':' :: ds from rfl,
      splitCharAux_of_not_mem ',' _ [] hnocomma]
    rfl
  rw [hsplit1]
  have hitem : parseFieldItem ⟨':' :: ds⟩ = .ok ⟨"", digitsVal ds, none⟩ := by
    unfold parseFieldItem
    have hsp : pySplit ⟨':' :: ds⟩ ':' = ["", ⟨ds⟩] := by
      unfold pySplit
      have hstep : splitCharAux ':' (':' :: ds) [] =
          [] :: splitCharAux ':' ds [] := rfl
      rw [show String.toList ⟨':' :: ds⟩ = ':' :: ds from rfl, hstep,
        splitCharAux_of_not_mem ':' ds [] hnocolon]
      rfl
    rw [hsp]
    dsimp only
    rw [pyInt_digits ds hne hdig]
    dsimp only
    rw [if_neg (show ¬(digitsVal ds ≤ 0) from by omega)]
  simp only [parseFieldList]
  rw [hitem]

/-- Witness for C10 at the spec :8. -/
theorem empty_name_field_accepted_witness :
    parse_spec ⟨':' :: ['8']⟩ =
      .ok { defaultProtocol with field_list := [⟨"", digitsVal ['8'], none⟩] } :=
  empty_name_field_accepted ['8'] (by decide) (by decide) (by decide)
